import Mathlib

/-!
Verification of the knight's-tour search-and-streaming engine of `the_knight`.

The definitions below are a shallow embedding of the Go sources:

* `pkg/board` (src/unnamed/part_001): `Board`, `Position`, `NewBoard`,
  `IsValidMove`, `CountValidMoves`, `IsComplete`, `WriteToBoard`,
  `ClearPosition`.  Go's `Board [][]int` (a square grid of rows) is embedded
  as a flat row-major list `cells` of length `size * size`; cell `(x, y)`
  lives at index `x * size + y`, exactly the cell `b[x][y]` of the source.
* `internal/solver/types.go`: `Solver.Solve` and `Solver.solveRecursive`,
  including the move log `moves`, the attempt counter, and the stream of
  `MoveUpdate` events pushed into `moveChan` (embedded as the list `events`,
  in emission order).
* `internal/web/server.go`: the size normalisation performed by
  `Server.handleSolve` before it launches `Solver.Solve`.
* `main.go`: the standalone CLI search `Board.MoveKnight`.

Modelling decisions, stated once here:

* Go's `context.Context` cancellation is a one-shot external signal.  The
  engine observes it at a totally ordered sequence of points (the `select`
  statements): the check at the top of every recursive call and the checks
  guarding every channel send.  We number these observation points `0, 1,
  2, ...` in execution order (field `steps`) and model the context as
  `ctx : Option Nat`: `none` is a context that never fires, `some T` is a
  context whose cancellation is visible to observation points numbered `T`
  and later.  This covers every possible timing of a single cancellation
  relative to the single-threaded engine.  Where Go's `select` has both a
  ready channel operation and a fired `<-ctx.Done()` (a nondeterministic
  choice in Go), the committed engine `solveRecursive` takes the
  `ctx.Done()` branch; `solveRecursiveSched` below makes this race
  explicit through a schedule oracle deciding every such race, and
  `solveRecursive` is proved to be its all-`ctx.Done()`-priority
  instance.  Top-of-call checks carry a `default` case in Go and are
  deterministic, so no oracle is consulted there.
* Go panics (out-of-range indexing in `WriteToBoard`, reached when the
  start position is outside the board) are modelled by the `panic` result:
  the engine checks the bounds that Go's runtime would check and returns
  `RunResult.panic` where the Go program would crash.
* The Go recursion carries no explicit bound; the model threads explicit
  fuel that decreases at every nested call (so fuel bounds the recursion
  depth, not the tree size) and returns `RunResult.out` when exhausted.
  `SolveRun` uses fuel `N*N + 1`, which is proved sufficient.
* The fields `placeAfterObs`, `clearAfterObs`, `emitAfterObs` of
  `SolverState` are ghost instrumentation: they count board placements,
  board clears and event emissions performed after some observation point
  has already seen the cancellation fire.  They influence no control flow.
-/

/-- Position: integer pair, as in `pkg/board` (`X`, `Y` are Go `int`s). -/
structure Position where
  x : Int
  y : Int
deriving DecidableEq, Repr

/-- The eight knight offsets, in the fixed enumeration order that both
`solveRecursive` and `CountValidMoves` use. -/
def knightOffsets : List Position :=
  [⟨2, -1⟩, ⟨2, 1⟩, ⟨-2, 1⟩, ⟨-2, -1⟩, ⟨1, 2⟩, ⟨1, -2⟩, ⟨-1, 2⟩, ⟨-1, -2⟩]

/-- Board: Go's `[][]int` square grid, flattened row-major.
`cells.length = size * size` for every board built by the program. -/
structure Board where
  size : Nat
  cells : List Nat
deriving DecidableEq, Repr

/-- `NewBoard` of `pkg/board`: all cells zero (unvisited). -/
def NewBoard (size : Nat) : Board :=
  ⟨size, List.replicate (size * size) 0⟩

/-- The bounds test of `IsValidMove`:
`pos.X >= 0 && pos.X < len(b) && pos.Y >= 0 && pos.Y < len(b[0])`. -/
def posInBounds (size : Nat) (p : Position) : Bool :=
  decide (0 ≤ p.x ∧ p.x < (size : Int) ∧ 0 ≤ p.y ∧ p.y < (size : Int))

/-- Row-major index of a position (meaningful only in bounds). -/
def Board.idx (b : Board) (p : Position) : Nat :=
  p.x.toNat * b.size + p.y.toNat

/-- The value of cell `b[pos.X][pos.Y]` (0 when out of range; the engine
only reads cells it has bounds-checked). -/
def Board.cellAt (b : Board) (p : Position) : Nat :=
  b.cells.getD (b.idx p) 0

/-- `Board.IsValidMove`: in bounds and unvisited. -/
def Board.IsValidMove (b : Board) (p : Position) : Bool :=
  posInBounds b.size p && (b.cellAt p == 0)

/-- `Board.CountValidMoves`: number of knight offsets from `pos` landing on
a square for which `IsValidMove` holds (the Warnsdorff accessibility). -/
def Board.CountValidMoves (b : Board) (pos : Position) : Nat :=
  knightOffsets.countP (fun off => b.IsValidMove ⟨pos.x + off.x, pos.y + off.y⟩)

/-- `Board.IsComplete`: every cell nonzero. -/
def Board.IsComplete (b : Board) : Bool :=
  b.cells.all (fun c => c != 0)

/-- `Board.WriteToBoard`: `b[pos.X][pos.Y] = moveNumber`.  The list update
is a no-op out of range; the engine performs Go's run-time bounds check
separately and reports `panic` there, so this is only applied in bounds. -/
def Board.WriteToBoard (b : Board) (p : Position) (moveNumber : Nat) : Board :=
  ⟨b.size, b.cells.set (b.idx p) moveNumber⟩

/-- `Board.ClearPosition`: `b[pos.X][pos.Y] = 0`. -/
def Board.ClearPosition (b : Board) (p : Position) : Board :=
  ⟨b.size, b.cells.set (b.idx p) 0⟩

/-- Number of unvisited cells (cells holding 0). -/
def Board.unvisited (b : Board) : Nat :=
  b.cells.count 0

/-- Well-formedness: the flat cell list has exactly `size * size` entries.
Every board the program builds satisfies this. -/
def Board.WF (b : Board) : Prop :=
  b.cells.length = b.size * b.size

/-- `MoveUpdate` of `internal/solver`: one placement or backtrack event. -/
structure MoveUpdate where
  position : Position
  moveNumber : Nat
  isBacktrack : Bool
deriving DecidableEq, Repr

/-- `MoveCandidate` of `solveRecursive`: a destination with its
Warnsdorff accessibility score. -/
structure MoveCandidate where
  position : Position
  accessibility : Nat
deriving DecidableEq, Repr

/-- One insertion step of the insertion sort in `solveRecursive` /
`MoveKnight`: the Go inner loop shifts entries while
`candidates[j].accessibility > key.accessibility`, so `key` lands after
every earlier entry whose accessibility is ≤ its own (a stable insert). -/
def insertCand (key : MoveCandidate) : List MoveCandidate → List MoveCandidate
  | [] => [key]
  | c :: cs =>
      if c.accessibility ≤ key.accessibility then c :: insertCand key cs
      else key :: c :: cs

/-- The insertion sort of `solveRecursive` / `MoveKnight`: entries are
inserted left to right into the sorted prefix. -/
def sortCandidates (l : List MoveCandidate) : List MoveCandidate :=
  l.foldl (fun acc key => insertCand key acc) []

/-- Candidate collection of `solveRecursive` / `MoveKnight`: walk the eight
knight offsets in their fixed order, keep destinations passing
`IsValidMove`, and score each with `CountValidMoves`. -/
def collectCandidates (b : Board) (pos : Position) : List MoveCandidate :=
  knightOffsets.filterMap (fun off =>
    let newPos : Position := ⟨pos.x + off.x, pos.y + off.y⟩
    if b.IsValidMove newPos then some ⟨newPos, b.CountValidMoves newPos⟩ else none)

/-- The mutable state of one `Solver` run: board, move log `moves`, attempt
counter, the emitted event stream (`moveChan` contents, in order), the
observation-point counter `steps`, and three ghost counters (see header). -/
structure SolverState where
  board : Board
  moves : List MoveUpdate
  attemptCount : Nat
  events : List MoveUpdate
  steps : Nat
  placeAfterObs : Nat
  clearAfterObs : Nat
  emitAfterObs : Nat
deriving DecidableEq, Repr

/-- Whether the observation point numbered `k` sees the cancellation. -/
def ctxDone : Option Nat → Nat → Bool
  | none, _ => false
  | some T, k => decide (T ≤ k)

/-- Whether some already-performed observation point (numbers `0` to
`st.steps - 1`) has seen the cancellation. -/
def obsNow (ctx : Option Nat) (st : SolverState) : Bool :=
  match ctx with
  | none => false
  | some T => decide (T < st.steps)

/-- Consume one observation point. -/
def tick (st : SolverState) : SolverState :=
  { st with steps := st.steps + 1 }

/-- Ghost: record a board placement performed after observation. -/
def ghostPlace (ctx : Option Nat) (st : SolverState) : SolverState :=
  if obsNow ctx st then { st with placeAfterObs := st.placeAfterObs + 1 } else st

/-- Ghost: record a board clear performed after observation. -/
def ghostClear (ctx : Option Nat) (st : SolverState) : SolverState :=
  if obsNow ctx st then { st with clearAfterObs := st.clearAfterObs + 1 } else st

/-- Ghost: record an event emission performed after observation. -/
def ghostEmit (ctx : Option Nat) (st : SolverState) : SolverState :=
  if obsNow ctx st then { st with emitAfterObs := st.emitAfterObs + 1 } else st

/-- Result of one engine invocation.  `out` is fuel exhaustion (a model
artifact, proved unreachable with the fuel `SolveRun` supplies), `panic`
is a Go run-time out-of-range panic. -/
inductive RunResult where
  | out : RunResult
  | panic : RunResult
  | ok : Bool → SolverState → RunResult
deriving DecidableEq, Repr

/-- The candidate loop of `solveRecursive` (`for _, candidate := range
candidates`), with the recursive call abstracted as `f`: first success
short-circuits, failures thread the state on. -/
def tryCands (f : SolverState → Position → RunResult) :
    SolverState → List MoveCandidate → RunResult
  | st, [] => .ok false st
  | st, c :: rest =>
      match f st c.position with
      | .ok true st' => .ok true st'
      | .ok false st' => tryCands f st' rest
      | r => r

/-- `Solver.solveRecursive`.  Execution order follows the source:
cancellation check; attempt counter; `WriteToBoard` (Go's run-time bounds
check modelled as the `posInBounds` guard returning `panic`); placement
event send (guarded by a cancellation check); move-log append;
completion test (success signal send guarded by a check); otherwise
candidate collection, stable insertion sort, the candidate loop; on a dead
end `ClearPosition`, backtrack event send (guarded by a check), move-log
pop. -/
def solveRecursive (ctx : Option Nat) : Nat → SolverState → Position → Nat → RunResult
  | 0, _, _, _ => .out
  | fuel + 1, st, currentPos, moveNumber =>
      if ctxDone ctx st.steps then .ok false (tick st) else
      let st := tick st
      let st := { st with attemptCount := st.attemptCount + 1 }
      if posInBounds st.board.size currentPos then
        let st := ghostPlace ctx st
        let st := { st with board := st.board.WriteToBoard currentPos moveNumber }
        if ctxDone ctx st.steps then .ok false (tick st) else
        let st := tick st
        let st := ghostEmit ctx st
        let st := { st with events := st.events ++ [MoveUpdate.mk currentPos moveNumber false] }
        let st := { st with moves := st.moves ++ [MoveUpdate.mk currentPos moveNumber false] }
        if st.board.IsComplete then
          if ctxDone ctx st.steps then .ok false (tick st) else .ok true (tick st)
        else
          let cands := sortCandidates (collectCandidates st.board currentPos)
          match tryCands (fun s p => solveRecursive ctx fuel s p (moveNumber + 1)) st cands with
          | .ok true stS => .ok true stS
          | .ok false stF =>
              let st := ghostClear ctx stF
              let st := { st with board := st.board.ClearPosition currentPos }
              if ctxDone ctx st.steps then .ok false (tick st) else
              let st := tick st
              let st := ghostEmit ctx st
              let st := { st with events := st.events ++ [MoveUpdate.mk currentPos 0 true] }
              let st := { st with moves :=
                if 0 < st.moves.length then st.moves.dropLast else st.moves }
              .ok false st
          | r => r
      else .panic

/-- The reset state `Solver.Solve` starts from: fresh board, empty log,
zero attempts, drained channels. -/
def initState (size : Nat) : SolverState :=
  ⟨NewBoard size, [], 0, [], 0, 0, 0, 0⟩

/-- The engine invocation `Solver.Solve` launches: root call at the start
position with move number 1, on a fresh board, with fuel `size² + 1`
(proved sufficient below). -/
def SolveRun (ctx : Option Nat) (size : Nat) (start : Position) : RunResult :=
  solveRecursive ctx (size * size + 1) (initState size) start 1

/-- `SolveResult` of `internal/solver`. -/
structure SolveResult where
  Success : Bool
  Moves : List MoveUpdate
  AttemptCount : Nat
deriving DecidableEq, Repr

/-- Outcome of `Solver.Solve`: `crashed` when the engine panicked (the Go
process dies), `fuelOut` is the model artifact, `returned res logAfter
errCancelled` is a normal return carrying the result, the contents of the
internal move log `s.moves` at the moment `Solve` returns, and whether the
non-nil `ctx.Err()` of the cancelled path was returned. -/
inductive SolveOutcome where
  | crashed : SolveOutcome
  | fuelOut : SolveOutcome
  | returned : SolveResult → List MoveUpdate → Bool → SolveOutcome
deriving DecidableEq, Repr

/-- Whether the cancellation has fired by (wall-clock) observation point
`k` — used for the caller's race between `doneChan` and `ctx.Done()`. -/
def ctxFired : Option Nat → Nat → Bool
  | none, _ => false
  | some T, k => decide (T ≤ k)

/-- `Solver.Solve`: reset state, fresh board, run the engine, then
assemble the result.  On success the move log is copied into the result;
on the cancelled path (`<-ctx.Done()` won the caller's select) `Solve`
returns `{Success: false, AttemptCount}` with `ctx.Err()`, leaving the
internal log as the engine left it; on ordinary failure the internal log
is truncated to empty before returning. -/
def Solve (ctx : Option Nat) (boardSize : Nat) (startPos : Position) : SolveOutcome :=
  match SolveRun ctx boardSize startPos with
  | .out => .fuelOut
  | .panic => .crashed
  | .ok success st =>
      if success then
        .returned ⟨true, st.moves, st.attemptCount⟩ st.moves false
      else if ctxFired ctx st.steps then
        .returned ⟨false, [], st.attemptCount⟩ st.moves true
      else
        .returned ⟨false, [], st.attemptCount⟩ [] false

/-- The size normalisation of `Server.handleSolve`:
`if req.Size <= 0 || req.Size > 20 { req.Size = 8 }`.  No start-position
validation exists anywhere in the program. -/
def clampSize (reqSize : Int) : Nat :=
  if reqSize ≤ 0 ∨ 20 < reqSize then 8 else reqSize.toNat

/-- The solve run `Server.handleSolve` spawns for a request: normalise the
size, then call `Solver.Solve` with the request's start position as-is. -/
def handleSolveRun (ctx : Option Nat) (reqSize : Int) (startPos : Position) : SolveOutcome :=
  Solve ctx (clampSize reqSize) startPos

/-- Result of the CLI search `Board.MoveKnight` (src/main.go): success
flag, final board, and the global `attemptCount`. -/
inductive CliResult where
  | out : CliResult
  | panic : CliResult
  | ok : Bool → Board → Nat → CliResult
deriving DecidableEq, Repr

/-- The candidate loop of `Board.MoveKnight`, recursive call abstracted. -/
def cliTry (f : Board → Nat → Position → CliResult) :
    Board → Nat → List MoveCandidate → CliResult
  | b, att, [] => .ok false b att
  | b, att, c :: rest =>
      match f b att c.position with
      | .ok true b' att' => .ok true b' att'
      | .ok false b' att' => cliTry f b' att' rest
      | r => r

/-- `Board.MoveKnight` of src/main.go: identical search to
`solveRecursive` (same board operations, candidate collection and
insertion sort, re-used here because the CLI inlines the very same code)
but with no cancellation, no event emission and no move log. -/
def MoveKnight : Nat → Board → Nat → Position → Nat → CliResult
  | 0, _, _, _, _ => .out
  | fuel + 1, b, att, currentPos, moveNumber =>
      let att := att + 1
      if posInBounds b.size currentPos then
        let b := b.WriteToBoard currentPos moveNumber
        if b.IsComplete then .ok true b att
        else
          let cands := sortCandidates (collectCandidates b currentPos)
          match cliTry (fun b' a p => MoveKnight fuel b' a p (moveNumber + 1)) b att cands with
          | .ok true b' att' => .ok true b' att'
          | .ok false b' att' => .ok false (b'.ClearPosition currentPos) att'
          | r => r
      else .panic

/-- Projection of an engine result onto what the CLI computes. -/
def cliOfRun : RunResult → CliResult
  | .out => .out
  | .panic => .panic
  | .ok r st => .ok r st.board st.attemptCount

/-- Whether `q` is one knight offset away from `p` (the legal knight step
relation induced by the source's fixed offset set). -/
def isKnightStep (p q : Position) : Bool :=
  knightOffsets.any (fun off => (q.x == p.x + off.x) && (q.y == p.y + off.y))

/-- Existence of a knight's tour completion: `Tour b pos m` holds when,
after writing move number `m` at `pos`, either the board is complete or
some legal knight step leads to a square from which the rest of the board
can be toured.  This is the specification-side notion "a knight's tour
exists from the given start" over the same board embedding. -/
inductive Tour : Board → Position → Nat → Prop where
  | done (b : Board) (pos : Position) (m : Nat) :
      (b.WriteToBoard pos m).IsComplete = true → Tour b pos m
  | step (b : Board) (pos : Position) (m : Nat) (next : Position) :
      isKnightStep pos next = true →
      (b.WriteToBoard pos m).IsValidMove next = true →
      Tour (b.WriteToBoard pos m) next (m + 1) →
      Tour b pos m

/-- The numbering half of the path invariant: entry `i` of the move log is
a placement of move number `i+1` at an in-bounds position whose board cell
holds exactly `i+1`. -/
def pathNumbering (b : Board) (ms : List MoveUpdate) : Prop :=
  ∀ i (h : i < ms.length),
    (ms.get ⟨i, h⟩).moveNumber = i + 1 ∧
    (ms.get ⟨i, h⟩).isBacktrack = false ∧
    posInBounds b.size (ms.get ⟨i, h⟩).position = true ∧
    b.cellAt (ms.get ⟨i, h⟩).position = i + 1

/-- The coverage half of the path invariant: every nonzero cell of the
board is the position of some move-log entry. -/
def pathCover (b : Board) (ms : List MoveUpdate) : Prop :=
  ∀ p, posInBounds b.size p = true → b.cellAt p ≠ 0 →
    ∃ i, ∃ h : i < ms.length, (ms.get ⟨i, h⟩).position = p

/-- Consecutive move-log entries are one legal knight step apart. -/
def Chain (ms : List MoveUpdate) : Prop :=
  ∀ i (h : i + 1 < ms.length),
    isKnightStep (ms.get ⟨i, Nat.lt_of_succ_lt h⟩).position
      (ms.get ⟨i + 1, h⟩).position = true

/-- The board/path invariant of spec §3: the nonzero cells are exactly the
current path prefix, numbered consecutively `1..k` with no gaps or
repeats. -/
def PathInv (b : Board) (ms : List MoveUpdate) : Prop :=
  pathNumbering b ms ∧ pathCover b ms

/-- Replaying one emitted event onto a board. -/
def applyEvent (b : Board) (e : MoveUpdate) : Board :=
  if e.isBacktrack then b.ClearPosition e.position
  else b.WriteToBoard e.position e.moveNumber

/-- Replaying an event trace onto a board. -/
def applyEvents (b : Board) (es : List MoveUpdate) : Board :=
  es.foldl applyEvent b

/-- One step of the stack reading of an event trace: a placement pushes,
a backtrack pops. -/
def stackStep (s : List MoveUpdate) (e : MoveUpdate) : List MoveUpdate :=
  if e.isBacktrack then s.dropLast else s ++ [e]

/-- The path prefix an event trace describes. -/
def stackOf (es : List MoveUpdate) : List MoveUpdate :=
  es.foldl stackStep []

/-- Every prefix of the trace replays (from a fresh board) to a board
satisfying the path invariant with the stack of that prefix: this is the
"at every point between engine steps" reading of the board invariant,
since in an uncancelled run mutations and emissions are in lockstep. -/
def GoodTrace (N : Nat) (es : List MoveUpdate) : Prop :=
  ∀ t Δ, es = t ++ Δ → PathInv (applyEvents (NewBoard N) t) (stackOf t)

/-- Number of placement events in a trace (a placement is performed by
exactly the calls that increment the attempt counter, in uncancelled
runs). -/
def countPlacements (es : List MoveUpdate) : Nat :=
  es.countP (fun e => !e.isBacktrack)

/-- Net state effect of the placement phase of one uncancelled frame:
two observation points, one attempt, the board write, the placement event,
the log append. -/
def placeStep (st : SolverState) (pos : Position) (m : Nat) : SolverState :=
  { st with
    board := st.board.WriteToBoard pos m,
    moves := st.moves ++ [MoveUpdate.mk pos m false],
    attemptCount := st.attemptCount + 1,
    events := st.events ++ [MoveUpdate.mk pos m false],
    steps := st.steps + 2 }

/-- Net state effect of the backtrack phase of one uncancelled frame:
the board clear, one observation point, the backtrack event, the log pop. -/
def backStep (st : SolverState) (pos : Position) : SolverState :=
  { st with
    board := st.board.ClearPosition pos,
    steps := st.steps + 1,
    events := st.events ++ [MoveUpdate.mk pos 0 true],
    moves := if 0 < st.moves.length then st.moves.dropLast else st.moves }

/-- Unfolding of one uncancelled engine call: with `ctx = none` every
cancellation check passes and every ghost update is the identity. -/
theorem solveRecursive_none_succ (fuel : Nat) (st : SolverState) (pos : Position) (m : Nat) :
    solveRecursive none (fuel + 1) st pos m =
      if posInBounds st.board.size pos then
        if (placeStep st pos m).board.IsComplete then .ok true (tick (placeStep st pos m))
        else
          match tryCands (fun s p => solveRecursive none fuel s p (m + 1)) (placeStep st pos m)
                (sortCandidates (collectCandidates (placeStep st pos m).board pos)) with
          | .ok true stS => .ok true stS
          | .ok false stF => .ok false (backStep stF pos)
          | r => r
      else .panic := rfl

/-! Auxiliary list lemmas about `getD`, `set` and `count`. -/

theorem getD_set_self (l : List Nat) (i v : Nat) (h : i < l.length) :
    (l.set i v).getD i 0 = v := by
  induction l generalizing i with
  | nil => simp at h
  | cons a t ih =>
      cases i with
      | zero => simp
      | succ j => simpa using ih j (by simpa using h)

theorem getD_set_ne (l : List Nat) (i j v : Nat) (h : i ≠ j) :
    (l.set i v).getD j 0 = l.getD j 0 := by
  induction l generalizing i j with
  | nil => simp
  | cons a t ih =>
      cases i with
      | zero =>
          cases j with
          | zero => exact absurd rfl h
          | succ k => simp
      | succ i' =>
          cases j with
          | zero => simp
          | succ k => simpa using ih i' k (by omega)

theorem set_getD_zero_self (l : List Nat) (i : Nat) (h : l.getD i 0 = 0) :
    l.set i 0 = l := by
  induction l generalizing i with
  | nil => simp
  | cons a t ih =>
      cases i with
      | zero => simpa using h.symm
      | succ j => simpa using ih j (by simpa using h)

theorem count_zero_set (l : List Nat) (i v : Nat) (h : i < l.length)
    (h0 : l.getD i 0 = 0) (hv : v ≠ 0) :
    (l.set i v).count 0 + 1 = l.count 0 := by
  induction l generalizing i with
  | nil => simp at h
  | cons a t ih =>
      cases i with
      | zero =>
          have ha : a = 0 := by simpa using h0
          subst ha
          simp [List.count_cons, hv, Ne.symm hv]
      | succ j =>
          have hj : j < t.length := by simpa using h
          have h0' : t.getD j 0 = 0 := by simpa using h0
          have := ih j hj h0'
          simp only [List.set_cons_succ, List.count_cons]
          omega

theorem getD_replicate_zero (n i : Nat) :
    (List.replicate n (0 : Nat)).getD i 0 = 0 := by
  induction n generalizing i with
  | zero => simp
  | succ k ih =>
      cases i with
      | zero => simp [List.replicate_succ]
      | succ j => simp [List.replicate_succ, ih j]

theorem count_zero_replicate (n : Nat) :
    (List.replicate n (0 : Nat)).count 0 = n := by
  induction n with
  | zero => simp
  | succ k ih => simp [List.replicate_succ, List.count_cons, ih]

/-! Auxiliary board lemmas. -/

theorem posInBounds_toNat_lt {size : Nat} {p : Position}
    (h : posInBounds size p = true) :
    p.x.toNat < size ∧ p.y.toNat < size ∧ 0 ≤ p.x ∧ 0 ≤ p.y := by
  simp only [posInBounds, decide_eq_true_eq] at h
  omega

theorem rowmajor_lt {x y n : Nat} (hx : x < n) (hy : y < n) :
    x * n + y < n * n := by
  have h1 : (x + 1) * n = x * n + n := by ring
  have h2 : (x + 1) * n ≤ n * n := Nat.mul_le_mul_right n (by omega)
  omega

theorem rowmajor_inj {x y x' y' n : Nat} (hy : y < n) (hy' : y' < n)
    (h : x * n + y = x' * n + y') : x = x' ∧ y = y' := by
  have hx : x = x' := by
    rcases Nat.lt_trichotomy x x' with hlt | heq | hgt
    · exfalso
      have h1 : (x + 1) * n = x * n + n := by ring
      have h2 : (x + 1) * n ≤ x' * n := Nat.mul_le_mul_right n (by omega)
      omega
    · exact heq
    · exfalso
      have h1 : (x' + 1) * n = x' * n + n := by ring
      have h2 : (x' + 1) * n ≤ x * n := Nat.mul_le_mul_right n (by omega)
      omega
  subst hx
  exact ⟨rfl, by omega⟩

theorem Board.idx_lt {b : Board} {p : Position} (hWF : b.WF)
    (hp : posInBounds b.size p = true) : b.idx p < b.cells.length := by
  obtain ⟨hx, hy, -, -⟩ := posInBounds_toNat_lt hp
  rw [hWF]
  exact rowmajor_lt hx hy

theorem Board.idx_inj {b : Board} {p q : Position}
    (hp : posInBounds b.size p = true) (hq : posInBounds b.size q = true)
    (h : b.idx p = b.idx q) : p = q := by
  obtain ⟨hpx, hpy, hpx0, hpy0⟩ := posInBounds_toNat_lt hp
  obtain ⟨hqx, hqy, hqx0, hqy0⟩ := posInBounds_toNat_lt hq
  obtain ⟨hx, hy⟩ := rowmajor_inj hpy hqy h
  have hx' : p.x = q.x := by omega
  have hy' : p.y = q.y := by omega
  cases p; cases q; simp_all

theorem Board.size_write (b : Board) (p : Position) (m : Nat) :
    (b.WriteToBoard p m).size = b.size := rfl

theorem Board.size_clear (b : Board) (p : Position) :
    (b.ClearPosition p).size = b.size := rfl

theorem Board.WF_write {b : Board} (hWF : b.WF) (p : Position) (m : Nat) :
    (b.WriteToBoard p m).WF := by
  simpa [Board.WF, Board.WriteToBoard] using hWF

theorem Board.WF_clear {b : Board} (hWF : b.WF) (p : Position) :
    (b.ClearPosition p).WF := by
  simpa [Board.WF, Board.ClearPosition] using hWF

theorem Board.clear_eq_write_zero (b : Board) (p : Position) :
    b.ClearPosition p = b.WriteToBoard p 0 := rfl

theorem Board.cellAt_write_self {b : Board} {p : Position} (m : Nat)
    (hWF : b.WF) (hp : posInBounds b.size p = true) :
    (b.WriteToBoard p m).cellAt p = m := by
  have := Board.idx_lt hWF hp
  simpa [Board.cellAt, Board.WriteToBoard, Board.idx] using
    getD_set_self b.cells (b.idx p) m this

theorem Board.cellAt_write_ne {b : Board} {p q : Position} (m : Nat)
    (hp : posInBounds b.size p = true) (hq : posInBounds b.size q = true)
    (hne : q ≠ p) : (b.WriteToBoard p m).cellAt q = b.cellAt q := by
  have hidx : b.idx p ≠ b.idx q := fun h => hne (Board.idx_inj hq hp h.symm)
  simpa [Board.cellAt, Board.WriteToBoard, Board.idx] using
    getD_set_ne b.cells (b.idx p) (b.idx q) m hidx

theorem Board.IsValidMove_iff {b : Board} {p : Position} :
    b.IsValidMove p = true ↔ posInBounds b.size p = true ∧ b.cellAt p = 0 := by
  simp [Board.IsValidMove]

theorem Board.unvisited_write {b : Board} {p : Position} {m : Nat}
    (hWF : b.WF) (hv : b.IsValidMove p = true) (hm : m ≠ 0) :
    (b.WriteToBoard p m).unvisited + 1 = b.unvisited := by
  obtain ⟨hp, h0⟩ := Board.IsValidMove_iff.mp hv
  exact count_zero_set b.cells (b.idx p) m (Board.idx_lt hWF hp) h0 hm

theorem Board.clear_write_cancel {b : Board} {p : Position} (m : Nat)
    (h0 : b.cellAt p = 0) :
    (b.WriteToBoard p m).ClearPosition p = b := by
  cases b with
  | mk size cells =>
      simp only [Board.WriteToBoard, Board.ClearPosition, Board.idx, Board.mk.injEq,
        true_and]
      rw [List.set_set]
      exact set_getD_zero_self cells _ h0

theorem Board.IsComplete_iff_unvisited {b : Board} :
    b.IsComplete = true ↔ b.unvisited = 0 := by
  simp only [Board.IsComplete, Board.unvisited, List.all_eq_true, bne_iff_ne]
  rw [List.count_eq_zero]
  constructor
  · intro h hmem
    exact (h 0 hmem) rfl
  · intro h x hx hx0
    exact h (hx0 ▸ hx)

theorem getD_mem (l : List Nat) (i : Nat) (h : i < l.length) : l.getD i 0 ∈ l := by
  induction l generalizing i with
  | nil => simp at h
  | cons a t ih =>
      cases i with
      | zero => simp
      | succ j => exact List.mem_cons_of_mem _ (ih j (by simpa using h))

theorem Board.complete_cellAt {b : Board} {p : Position} (hWF : b.WF)
    (hc : b.IsComplete = true) (hp : posInBounds b.size p = true) :
    b.cellAt p ≠ 0 := by
  intro h0
  have hnot : (0 : Nat) ∉ b.cells :=
    List.count_eq_zero.mp (Board.IsComplete_iff_unvisited.mp hc)
  exact hnot (h0 ▸ getD_mem b.cells (b.idx p) (Board.idx_lt hWF hp))

theorem NewBoard_WF (n : Nat) : (NewBoard n).WF := by
  simp [NewBoard, Board.WF]

theorem NewBoard_size (n : Nat) : (NewBoard n).size = n := rfl

theorem NewBoard_unvisited (n : Nat) : (NewBoard n).unvisited = n * n := by
  simp [NewBoard, Board.unvisited, count_zero_replicate]

theorem NewBoard_cellAt (n : Nat) (p : Position) : (NewBoard n).cellAt p = 0 := by
  simp [NewBoard, Board.cellAt, getD_replicate_zero]

/-! Event-trace lemmas. -/

theorem applyEvents_append (b : Board) (E E' : List MoveUpdate) :
    applyEvents b (E ++ E') = applyEvents (applyEvents b E) E' :=
  List.foldl_append _ _ _ _

theorem applyEvents_concat (b : Board) (E : List MoveUpdate) (e : MoveUpdate) :
    applyEvents b (E ++ [e]) = applyEvent (applyEvents b E) e := by
  rw [applyEvents_append]; rfl

theorem stackOf_append (E Δ : List MoveUpdate) :
    stackOf (E ++ Δ) = Δ.foldl stackStep (stackOf E) :=
  List.foldl_append _ _ _ _

theorem stackOf_concat (E : List MoveUpdate) (e : MoveUpdate) :
    stackOf (E ++ [e]) = stackStep (stackOf E) e := by
  rw [stackOf_append]; rfl

theorem stackStep_place (s : List MoveUpdate) (pos : Position) (m : Nat) :
    stackStep s (MoveUpdate.mk pos m false) = s ++ [MoveUpdate.mk pos m false] := rfl

theorem stackStep_back (s : List MoveUpdate) (pos : Position) (m : Nat) :
    stackStep s (MoveUpdate.mk pos m true) = s.dropLast := rfl

theorem countPlacements_append (E E' : List MoveUpdate) :
    countPlacements (E ++ E') = countPlacements E + countPlacements E' :=
  List.countP_append _ _ _

theorem PathInv_nil (N : Nat) : PathInv (NewBoard N) [] := by
  constructor
  · intro i h; simp at h
  · intro p hp hc
    rw [NewBoard_cellAt] at hc
    exact absurd rfl hc

theorem GoodTrace_nil (N : Nat) : GoodTrace N [] := by
  intro t Δ heq
  have ht : t = [] := by
    cases t with
    | nil => rfl
    | cons a t' => simp at heq
  subst ht
  exact PathInv_nil N

theorem GoodTrace_concat {N : Nat} {E : List MoveUpdate} {e : MoveUpdate}
    (hg : GoodTrace N E)
    (hnew : PathInv (applyEvents (NewBoard N) (E ++ [e])) (stackOf (E ++ [e]))) :
    GoodTrace N (E ++ [e]) := by
  intro t Δ heq
  rcases List.eq_nil_or_concat Δ with rfl | ⟨Δ', d, rfl⟩
  · rw [List.append_nil] at heq
    subst heq
    exact hnew
  · rw [List.concat_eq_append, ← List.append_assoc] at heq
    have hlen : E.length = (t ++ Δ').length := by
      have := congrArg List.length heq
      simp only [List.length_append, List.length_cons, List.length_nil] at this ⊢
      omega
    obtain ⟨hE, -⟩ := List.append_inj heq hlen
    exact hg t Δ' hE

theorem GoodTrace_extend {N : Nat} {E Δ : List MoveUpdate}
    (hg : GoodTrace N (E ++ Δ)) : GoodTrace N E := by
  intro t Δ' heq
  exact hg t (Δ' ++ Δ) (by rw [heq, List.append_assoc])

/-! Candidate-collection and insertion-sort lemmas. -/

theorem collect_props {b : Board} {pos : Position} {c : MoveCandidate}
    (h : c ∈ collectCandidates b pos) :
    b.IsValidMove c.position = true ∧
    c.accessibility = b.CountValidMoves c.position ∧
    isKnightStep pos c.position = true := by
  simp only [collectCandidates, List.mem_filterMap] at h
  obtain ⟨off, hoff, hfc⟩ := h
  split at hfc
  case isTrue hv =>
      cases hfcledge : hfc
      refine ⟨hv, rfl, ?_⟩
      simp only [isKnightStep, List.any_eq_true]
      exact ⟨off, hoff, by simp⟩
  case isFalse => exact absurd hfc (by simp)

theorem collect_mem_of {b : Board} {pos q : Position}
    (hk : isKnightStep pos q = true) (hv : b.IsValidMove q = true) :
    (⟨q, b.CountValidMoves q⟩ : MoveCandidate) ∈ collectCandidates b pos := by
  simp only [isKnightStep, List.any_eq_true, Bool.and_eq_true, beq_iff_eq] at hk
  obtain ⟨off, hoff, hx, hy⟩ := hk
  have hq : q = ⟨pos.x + off.x, pos.y + off.y⟩ := by
    cases q; simp_all
  subst hq
  simp only [collectCandidates, List.mem_filterMap]
  exact ⟨off, hoff, by simp [hv]⟩

theorem insertCand_perm (x : MoveCandidate) (l : List MoveCandidate) :
    (insertCand x l).Perm (x :: l) := by
  induction l with
  | nil => exact List.Perm.refl _
  | cons c cs ih =>
      simp only [insertCand]
      split
      · exact ((ih.cons c).trans (List.Perm.swap x c cs))
      · exact List.Perm.refl _

theorem foldl_insert_perm (l acc : List MoveCandidate) :
    (l.foldl (fun a k => insertCand k a) acc).Perm (acc ++ l) := by
  induction l generalizing acc with
  | nil => simp
  | cons x xs ih =>
      simp only [List.foldl_cons]
      refine (ih (insertCand x acc)).trans ?_
      refine (List.Perm.append_right xs (insertCand_perm x acc)).trans ?_
      exact List.perm_middle.symm

theorem sortCandidates_perm (l : List MoveCandidate) :
    (sortCandidates l).Perm l := by
  simpa [sortCandidates] using foldl_insert_perm l []

theorem insertCand_pairwise {x : MoveCandidate} {l : List MoveCandidate}
    (h : l.Pairwise (fun c d => c.accessibility ≤ d.accessibility)) :
    (insertCand x l).Pairwise (fun c d => c.accessibility ≤ d.accessibility) := by
  induction l with
  | nil => simp [insertCand]
  | cons c cs ih =>
      rw [List.pairwise_cons] at h
      obtain ⟨hc, hcs⟩ := h
      simp only [insertCand]
      split
      case isTrue hle =>
          rw [List.pairwise_cons]
          refine ⟨?_, ih hcs⟩
          intro d hd
          have hmem := (insertCand_perm x cs).mem_iff.mp hd
          rcases List.mem_cons.mp hmem with rfl | hdm
          · exact hle
          · exact hc d hdm
      case isFalse hgt =>
          rw [List.pairwise_cons]
          refine ⟨?_, List.pairwise_cons.mpr ⟨hc, hcs⟩⟩
          intro d hd
          rcases List.mem_cons.mp hd with rfl | hdm
          · omega
          · exact Nat.le_trans (by omega) (hc d hdm)

theorem foldl_insert_pairwise (l : List MoveCandidate) :
    ∀ acc, acc.Pairwise (fun c d => c.accessibility ≤ d.accessibility) →
    (l.foldl (fun a k => insertCand k a) acc).Pairwise
      (fun c d => c.accessibility ≤ d.accessibility) := by
  induction l with
  | nil => intro acc h; simpa using h
  | cons x xs ih =>
      intro acc h
      exact ih (insertCand x acc) (insertCand_pairwise h)

theorem sortCandidates_pairwise (l : List MoveCandidate) :
    (sortCandidates l).Pairwise (fun c d => c.accessibility ≤ d.accessibility) :=
  foldl_insert_pairwise l [] (List.Pairwise.nil)

theorem insertCand_filter (x : MoveCandidate) (l : List MoveCandidate) (v : Nat)
    (hs : l.Pairwise (fun c d => c.accessibility ≤ d.accessibility)) :
    (insertCand x l).filter (fun c => c.accessibility == v) =
      if x.accessibility = v then
        l.filter (fun c => c.accessibility == v) ++ [x]
      else l.filter (fun c => c.accessibility == v) := by
  induction l with
  | nil =>
      simp only [insertCand]
      by_cases hxv : x.accessibility = v
      · simp [List.filter_cons, hxv]
      · simp [List.filter_cons, hxv]
  | cons c cs ih =>
      rw [List.pairwise_cons] at hs
      obtain ⟨hc, hcs⟩ := hs
      simp only [insertCand]
      split
      case isTrue hle =>
          by_cases hcv : c.accessibility = v
          · by_cases hxv : x.accessibility = v
            · simp [List.filter_cons, hcv, hxv, ih hcs]
            · simp [List.filter_cons, hcv, hxv, ih hcs]
          · by_cases hxv : x.accessibility = v
            · simp [List.filter_cons, hcv, hxv, ih hcs]
            · simp [List.filter_cons, hcv, hxv, ih hcs]
      case isFalse hgt =>
          push_neg at hgt
          by_cases hxv : x.accessibility = v
          · have hnil : (c :: cs).filter (fun d => d.accessibility == v) = [] := by
              rw [List.filter_eq_nil_iff]
              intro d hd
              have hdc : c.accessibility ≤ d.accessibility := by
                rcases List.mem_cons.mp hd with rfl | hdm
                · exact Nat.le_refl _
                · exact hc d hdm
              simp only [beq_iff_eq]
              omega
            simp [List.filter_cons, hxv, hnil]
          · have h1 : ((x :: c :: cs).filter (fun d => d.accessibility == v)) =
                ((c :: cs).filter (fun d => d.accessibility == v)) := by
              simp [List.filter_cons, hxv]
            simp [h1, hxv]

theorem foldl_insert_filter (l : List MoveCandidate) (v : Nat) :
    ∀ acc, acc.Pairwise (fun c d => c.accessibility ≤ d.accessibility) →
    (l.foldl (fun a k => insertCand k a) acc).filter (fun c => c.accessibility == v) =
      acc.filter (fun c => c.accessibility == v) ++
        l.filter (fun c => c.accessibility == v) := by
  induction l with
  | nil => intro acc h; simp
  | cons x xs ih =>
      intro acc h
      simp only [List.foldl_cons]
      rw [ih (insertCand x acc) (insertCand_pairwise h)]
      rw [insertCand_filter x acc v h]
      by_cases hxv : x.accessibility = v
      · simp [List.filter_cons, hxv]
      · simp [List.filter_cons, hxv]

theorem sortCandidates_filter (l : List MoveCandidate) (v : Nat) :
    (sortCandidates l).filter (fun c => c.accessibility == v) =
      l.filter (fun c => c.accessibility == v) := by
  simpa [sortCandidates] using foldl_insert_filter l v [] (List.Pairwise.nil)

/-! Path-invariant preservation under one placement. -/

theorem get_concat_lt {α : Type} (l : List α) (e : α) (i : Nat)
    (h : i < l.length) (h' : i < (l ++ [e]).length) :
    (l ++ [e]).get ⟨i, h'⟩ = l.get ⟨i, h⟩ := by
  simp [List.get_eq_getElem, List.getElem_append_left h]

theorem get_concat_last {α : Type} (l : List α) (e : α)
    (h' : l.length < (l ++ [e]).length) :
    (l ++ [e]).get ⟨l.length, h'⟩ = e := by
  simp [List.get_eq_getElem, List.getElem_concat_length]

theorem pathNumbering_place {b : Board} {ms : List MoveUpdate} {pos : Position}
    (hWF : b.WF) (hnum : pathNumbering b ms) (hv : b.IsValidMove pos = true) :
    pathNumbering (b.WriteToBoard pos (ms.length + 1))
      (ms ++ [MoveUpdate.mk pos (ms.length + 1) false]) := by
  obtain ⟨hpos, hcell0⟩ := Board.IsValidMove_iff.mp hv
  intro i h
  have hlen : i < ms.length + 1 := by simpa using h
  rcases Nat.lt_or_ge i ms.length with hlt | hge
  · rw [get_concat_lt ms _ i hlt h]
    obtain ⟨hm, hb, hp, hc⟩ := hnum i hlt
    refine ⟨hm, hb, ?_, ?_⟩
    · rw [Board.size_write]; exact hp
    · have hne : (ms.get ⟨i, hlt⟩).position ≠ pos := by
        intro heq
        rw [heq] at hc
        omega
      rw [Board.cellAt_write_ne _ hpos hp hne]
      exact hc
  · have hieq : i = ms.length := by omega
    subst hieq
    rw [get_concat_last ms _ h]
    refine ⟨rfl, rfl, ?_, ?_⟩
    · rw [Board.size_write]; exact hpos
    · exact Board.cellAt_write_self _ hWF hpos

theorem pathCover_place {b : Board} {ms : List MoveUpdate} {pos : Position}
    (hcov : pathCover b ms) (hv : b.IsValidMove pos = true) :
    pathCover (b.WriteToBoard pos (ms.length + 1))
      (ms ++ [MoveUpdate.mk pos (ms.length + 1) false]) := by
  obtain ⟨hpos, hcell0⟩ := Board.IsValidMove_iff.mp hv
  intro p hp hc
  rw [Board.size_write] at hp
  by_cases hpe : p = pos
  · subst hpe
    refine ⟨ms.length, by simp, ?_⟩
    rw [get_concat_last ms _ (by simp)]
  · rw [Board.cellAt_write_ne _ hpos hp (Ne.symm (fun h => hpe h.symm))] at hc
    obtain ⟨i, hi, hip⟩ := hcov p hp hc
    exact ⟨i, by simp; omega, by rw [get_concat_lt ms _ i hi]; exact hip⟩

theorem Chain_concat {ms : List MoveUpdate} {e : MoveUpdate} (hch : Chain ms)
    (hlink : ∀ h : ms ≠ [], isKnightStep (ms.getLast h).position e.position = true) :
    Chain (ms ++ [e]) := by
  intro i h
  have hlen : i + 1 < ms.length + 1 := by simpa using h
  rcases Nat.lt_or_ge (i + 1) ms.length with hlt | hge
  · rw [get_concat_lt ms _ i (Nat.lt_of_succ_lt hlt), get_concat_lt ms _ (i+1) hlt]
    exact hch i hlt
  · have hieq : i + 1 = ms.length := by omega
    have hne : ms ≠ [] := by
      intro hnil
      rw [hnil] at hieq
      simp at hieq
    have hi : i < ms.length := by omega
    rw [get_concat_lt ms _ i hi]
    have hgl : ms.getLast hne = ms.get ⟨i, hi⟩ := by
      rw [List.getLast_eq_getElem]
      simp [List.get_eq_getElem]
      congr 1
      omega
    have he : (ms ++ [e]).get ⟨i + 1, h⟩ = e := by
      rw [List.get_eq_getElem]
      exact List.getElem_concat_length ms e (i + 1) hieq _
    rw [he, ← hgl]
    exact hlink hne

/-! Projection lemmas for the state transformers. -/

@[simp] theorem tick_board (st : SolverState) : (tick st).board = st.board := rfl

@[simp] theorem tick_moves (st : SolverState) : (tick st).moves = st.moves := rfl

@[simp] theorem tick_attempt (st : SolverState) :
    (tick st).attemptCount = st.attemptCount := rfl

@[simp] theorem tick_events (st : SolverState) : (tick st).events = st.events := rfl

@[simp] theorem placeStep_board (st : SolverState) (pos : Position) (m : Nat) :
    (placeStep st pos m).board = st.board.WriteToBoard pos m := rfl

@[simp] theorem placeStep_moves (st : SolverState) (pos : Position) (m : Nat) :
    (placeStep st pos m).moves = st.moves ++ [MoveUpdate.mk pos m false] := rfl

@[simp] theorem placeStep_attempt (st : SolverState) (pos : Position) (m : Nat) :
    (placeStep st pos m).attemptCount = st.attemptCount + 1 := rfl

@[simp] theorem placeStep_events (st : SolverState) (pos : Position) (m : Nat) :
    (placeStep st pos m).events = st.events ++ [MoveUpdate.mk pos m false] := rfl

@[simp] theorem backStep_board (st : SolverState) (pos : Position) :
    (backStep st pos).board = st.board.ClearPosition pos := rfl

@[simp] theorem backStep_moves (st : SolverState) (pos : Position) :
    (backStep st pos).moves =
      if 0 < st.moves.length then st.moves.dropLast else st.moves := rfl

@[simp] theorem backStep_attempt (st : SolverState) (pos : Position) :
    (backStep st pos).attemptCount = st.attemptCount := rfl

@[simp] theorem backStep_events (st : SolverState) (pos : Position) :
    (backStep st pos).events = st.events ++ [MoveUpdate.mk pos 0 true] := rfl

@[simp] theorem countPlacements_placement (E : List MoveUpdate) (pos : Position) (m : Nat) :
    countPlacements (E ++ [MoveUpdate.mk pos m false]) = countPlacements E + 1 := by
  simp [countPlacements, List.countP_append, List.countP_cons]

@[simp] theorem countPlacements_backtrack (E : List MoveUpdate) (pos : Position) (m : Nat) :
    countPlacements (E ++ [MoveUpdate.mk pos m true]) = countPlacements E := by
  simp [countPlacements, List.countP_append, List.countP_cons]

/-- The invariant holding at entry to every uncancelled engine call: a
well-formed board whose nonzero cells are exactly the logged path prefix
(numbered `1..k` in log order, forming a knight chain), the count link
between log length and unvisited cells, and the emitted trace replaying to
the current board with every prefix satisfying the path invariant. -/
def NodeInv (st : SolverState) : Prop :=
  st.board.WF ∧
  pathNumbering st.board st.moves ∧
  pathCover st.board st.moves ∧
  Chain st.moves ∧
  st.moves.length + st.board.unvisited = st.board.size * st.board.size ∧
  applyEvents (NewBoard st.board.size) st.events = st.board ∧
  stackOf st.events = st.moves ∧
  GoodTrace st.board.size st.events

/-- Full behavioural specification of one uncancelled engine call at a
given fuel: the call returns, preserves the node invariant, extends the
event trace by `Δ` while adding exactly `countPlacements Δ` attempts,
restores board and log on failure, ends complete on success, and succeeds
whenever a tour completion exists from its square. -/
def EngineSpecAt (fuel : Nat) : Prop :=
  ∀ (st : SolverState) (pos : Position) (m : Nat),
    NodeInv st →
    st.board.IsValidMove pos = true →
    m = st.moves.length + 1 →
    (∀ e, st.moves.getLast? = some e → isKnightStep e.position pos = true) →
    st.board.unvisited < fuel →
    ∃ r st', solveRecursive none fuel st pos m = .ok r st' ∧
      st'.board.size = st.board.size ∧
      NodeInv st' ∧
      (∃ Δ, st'.events = st.events ++ Δ ∧
            st'.attemptCount = st.attemptCount + countPlacements Δ) ∧
      (r = false → st'.board = st.board ∧ st'.moves = st.moves) ∧
      (r = true → st'.board.IsComplete = true) ∧
      (Tour st.board pos m → r = true)

/-- The candidate loop satisfies the engine specification: candidates are
tried in order against an unchanged board (each failed child restores it),
the first success short-circuits, and if any listed candidate admits a
tour completion the loop succeeds. -/
theorem tryCands_none_spec (fuel : Nat) (IH : EngineSpecAt fuel)
    (bRef : Board) (mNext : Nat) :
    ∀ (cands : List MoveCandidate) (st : SolverState),
    NodeInv st →
    st.board = bRef →
    mNext = st.moves.length + 1 →
    (∀ c ∈ cands, bRef.IsValidMove c.position = true) →
    (∀ c ∈ cands, ∀ e, st.moves.getLast? = some e →
        isKnightStep e.position c.position = true) →
    bRef.unvisited < fuel →
    ∃ r st', tryCands (fun s p => solveRecursive none fuel s p mNext) st cands =
        .ok r st' ∧
      st'.board.size = st.board.size ∧
      NodeInv st' ∧
      (∃ Δ, st'.events = st.events ++ Δ ∧
            st'.attemptCount = st.attemptCount + countPlacements Δ) ∧
      (r = false → st'.board = st.board ∧ st'.moves = st.moves) ∧
      (r = true → st'.board.IsComplete = true) ∧
      ((∃ c ∈ cands, Tour bRef c.position mNext) → r = true) := by
  intro cands
  induction cands with
  | nil =>
      intro st hNI hb hm hvalid hlink hfuel
      refine ⟨false, st, rfl, rfl, hNI, ⟨[], by simp, by simp [countPlacements]⟩,
        fun _ => ⟨rfl, rfl⟩, by simp, ?_⟩
      rintro ⟨c, hc, -⟩
      exact absurd hc (List.not_mem_nil c)
  | cons c rest ih =>
      intro st hNI hb hm hvalid hlink hfuel
      have hvc : st.board.IsValidMove c.position = true := by
        rw [hb]; exact hvalid c (List.mem_cons_self c rest)
      have hfuel' : st.board.unvisited < fuel := by rw [hb]; exact hfuel
      obtain ⟨rc, stc, heq, hsz, hNIc, ⟨Δ1, hev1, hatt1⟩, hfail, hcomp, hTc⟩ :=
        IH st c.position mNext hNI hvc hm
          (fun e he => hlink c (List.mem_cons_self c rest) e he) hfuel'
      cases rc with
      | true =>
          refine ⟨true, stc, ?_, hsz, hNIc, ⟨Δ1, hev1, hatt1⟩, by simp,
            fun _ => hcomp rfl, fun _ => rfl⟩
          simp only [tryCands]
          rw [heq]
      | false =>
          obtain ⟨hbc, hmc⟩ := hfail rfl
          obtain ⟨r, st', heq2, hsz2, hNI2, ⟨Δ2, hev2, hatt2⟩, hfail2, hcomp2, hT2⟩ :=
            ih stc hNIc (by rw [hbc, hb]) (by rw [hmc]; exact hm)
              (fun c' hc' => hvalid c' (List.mem_cons_of_mem c hc'))
              (fun c' hc' e he => hlink c' (List.mem_cons_of_mem c hc') e
                (by rw [← hmc]; exact he))
              hfuel
          refine ⟨r, st', ?_, ?_, hNI2, ⟨Δ1 ++ Δ2, ?_, ?_⟩, ?_, hcomp2, ?_⟩
          · simp only [tryCands]
            rw [heq]
            exact heq2
          · rw [hsz2, hbc]
          · rw [hev2, hev1, List.append_assoc]
          · rw [hatt2, hatt1, countPlacements_append]
            omega
          · intro hr
            obtain ⟨hb2, hm2⟩ := hfail2 hr
            exact ⟨by rw [hb2, hbc], by rw [hm2, hmc]⟩
          · rintro ⟨c', hc', hT⟩
            rcases List.mem_cons.mp hc' with rfl | hmem
            · exact absurd (hTc (by rw [hb]; exact hT)) (by simp)
            · exact hT2 ⟨c', hmem, hT⟩

/-- Every uncancelled engine call with fuel exceeding the number of
unvisited cells satisfies the full engine specification. -/
theorem engine_none_spec : ∀ fuel, EngineSpecAt fuel := by
  intro fuel
  induction fuel with
  | zero =>
      intro st pos m hNI hv hm hlink hfuel
      exact absurd hfuel (Nat.not_lt_zero _)
  | succ fuel IH =>
      intro st pos m hNI hv hm hlink hfuel
      obtain ⟨hWF, hnum, hcov, hch, hcnt, hreplay, hstack, hgood⟩ := hNI
      obtain ⟨hpos, hcell0⟩ := Board.IsValidMove_iff.mp hv
      subst hm
      rw [solveRecursive_none_succ, if_pos hpos]
      have hWF' : (st.board.WriteToBoard pos (st.moves.length + 1)).WF :=
        Board.WF_write hWF _ _
      have hunv : (st.board.WriteToBoard pos (st.moves.length + 1)).unvisited + 1 =
          st.board.unvisited :=
        Board.unvisited_write hWF hv (by omega)
      have hnum' := pathNumbering_place hWF hnum hv
      have hcov' := pathCover_place hcov hv
      have hch' : Chain (st.moves ++ [MoveUpdate.mk pos (st.moves.length + 1) false]) := by
        apply Chain_concat hch
        intro hne
        exact hlink (st.moves.getLast hne) (List.getLast?_eq_getLast st.moves hne)
      have hreplay' : applyEvents (NewBoard st.board.size)
          (st.events ++ [MoveUpdate.mk pos (st.moves.length + 1) false]) =
          st.board.WriteToBoard pos (st.moves.length + 1) := by
        rw [applyEvents_concat, hreplay]
        rfl
      have hstack' : stackOf (st.events ++ [MoveUpdate.mk pos (st.moves.length + 1) false]) =
          st.moves ++ [MoveUpdate.mk pos (st.moves.length + 1) false] := by
        rw [stackOf_concat, hstack]
        rfl
      have hgood' : GoodTrace st.board.size
          (st.events ++ [MoveUpdate.mk pos (st.moves.length + 1) false]) := by
        apply GoodTrace_concat hgood
        rw [hreplay', hstack']
        exact ⟨hnum', hcov'⟩
      have hNI1 : NodeInv (placeStep st pos (st.moves.length + 1)) := by
        refine ⟨hWF', hnum', hcov', hch', ?_, hreplay', hstack', hgood'⟩
        simp only [placeStep_moves, placeStep_board, Board.size_write,
          List.length_append, List.length_cons, List.length_nil]
        omega
      by_cases hcompl : (placeStep st pos (st.moves.length + 1)).board.IsComplete = true
      · rw [if_pos hcompl]
        refine ⟨true, tick (placeStep st pos (st.moves.length + 1)), rfl, rfl, hNI1,
          ?_, ?_, ?_, ?_⟩
        · refine ⟨[MoveUpdate.mk pos (st.moves.length + 1) false], rfl, ?_⟩
          simp [countPlacements]
        · intro h; exact absurd h (by simp)
        · intro _; exact hcompl
        · intro _; rfl
      · rw [if_neg hcompl]
        have hvalidc : ∀ c ∈ sortCandidates
            (collectCandidates (placeStep st pos (st.moves.length + 1)).board pos),
            (placeStep st pos (st.moves.length + 1)).board.IsValidMove c.position = true :=
          fun c hc => (collect_props ((sortCandidates_perm _).mem_iff.mp hc)).1
        have hlinkc : ∀ c ∈ sortCandidates
            (collectCandidates (placeStep st pos (st.moves.length + 1)).board pos),
            ∀ e, (placeStep st pos (st.moves.length + 1)).moves.getLast? = some e →
            isKnightStep e.position c.position = true := by
          intro c hc e he
          rw [placeStep_moves, List.getLast?_concat] at he
          cases he
          exact (collect_props ((sortCandidates_perm _).mem_iff.mp hc)).2.2
        obtain ⟨rl, stl, heql, hszl, hNIl, ⟨Δl, hevl, hattl⟩, hfaill, hcompll, hTl⟩ :=
          tryCands_none_spec fuel IH (placeStep st pos (st.moves.length + 1)).board
            (st.moves.length + 1 + 1)
            (sortCandidates (collectCandidates (placeStep st pos (st.moves.length + 1)).board pos))
            (placeStep st pos (st.moves.length + 1))
            hNI1 rfl (by simp) hvalidc hlinkc (by simp only [placeStep_board]; omega)
        obtain ⟨hWFl, hnuml, hcovl, hchl, hcntl, hreplayl, hstackl, hgoodl⟩ := hNIl
        cases rl with
        | true =>
            rw [heql]
            refine ⟨true, stl, rfl, ?_, ?_, ?_, ?_, ?_, ?_⟩
            · exact hszl
            · exact ⟨hWFl, hnuml, hcovl, hchl, hcntl, hreplayl, hstackl, hgoodl⟩
            · refine ⟨[MoveUpdate.mk pos (st.moves.length + 1) false] ++ Δl, ?_, ?_⟩
              · rw [hevl]
                simp [List.append_assoc]
              · rw [hattl, countPlacements_append]
                simp only [placeStep_attempt]
                simp [countPlacements]
                omega
            · intro h; exact absurd h (by simp)
            · intro _; exact hcompll rfl
            · intro _; rfl
        | false =>
            obtain ⟨hbl, hml⟩ := hfaill rfl
            rw [heql]
            have hbsz : stl.board.size = st.board.size := by
              rw [hbl]; rfl
            have hclr : stl.board.ClearPosition pos = st.board := by
              rw [hbl]
              simp only [placeStep_board]
              exact Board.clear_write_cancel _ hcell0
            have hmoves : (backStep stl pos).moves = st.moves := by
              simp only [backStep_moves, hml, placeStep_moves]
              rw [if_pos (by simp)]
              exact List.dropLast_concat
            have hstackB : stackOf ((backStep stl pos).events) = st.moves := by
              simp only [backStep_events]
              rw [stackOf_concat, hstackl]
              simp only [stackStep_back, hml, placeStep_moves]
              exact List.dropLast_concat
            have hreplayB : applyEvents (NewBoard st.board.size) ((backStep stl pos).events) =
                st.board := by
              simp only [backStep_events]
              rw [applyEvents_concat]
              rw [hbsz] at hreplayl
              rw [hreplayl]
              simpa [applyEvent] using hclr
            refine ⟨false, backStep stl pos, rfl, ?_, ?_, ?_, ?_, ?_, ?_⟩
            · simp only [backStep_board]
              rw [hclr]
            · refine ⟨?_, ?_, ?_, ?_, ?_, ?_, ?_, ?_⟩
              · simp only [backStep_board]
                rw [hclr]; exact hWF
              · simp only [backStep_board]
                rw [hclr, hmoves]; exact hnum
              · simp only [backStep_board]
                rw [hclr, hmoves]; exact hcov
              · rw [hmoves]; exact hch
              · simp only [backStep_board]
                rw [hclr, hmoves]; exact hcnt
              · simp only [backStep_board]
                rw [hclr]
                exact hreplayB
              · rw [hstackB, hmoves]
              · simp only [backStep_board]
                rw [hclr]
                apply GoodTrace_concat
                · rw [← hbsz]; exact hgoodl
                · rw [show stl.events ++ [MoveUpdate.mk pos 0 true] =
                      (backStep stl pos).events from rfl]
                  rw [hstackB, hreplayB]
                  exact ⟨hnum, hcov⟩
            · refine ⟨[MoveUpdate.mk pos (st.moves.length + 1) false] ++ Δl ++
                [MoveUpdate.mk pos 0 true], ?_, ?_⟩
              · simp only [backStep_events]
                rw [hevl]
                simp [List.append_assoc]
              · simp only [backStep_attempt]
                rw [hattl]
                simp only [placeStep_attempt]
                rw [countPlacements_backtrack, countPlacements_append]
                simp [countPlacements]
                omega
            · intro _
              exact ⟨by simp only [backStep_board]; rw [hclr], hmoves⟩
            · intro h; exact absurd h (by simp)
            · intro hT
              exfalso
              cases hT with
              | done _ _ _ hdone =>
                  exact hcompl hdone
              | step _ _ _ next hk hvn hTn =>
                  have hmem : (⟨next,
                      (st.board.WriteToBoard pos (st.moves.length + 1)).CountValidMoves next⟩ :
                      MoveCandidate) ∈
                      collectCandidates (st.board.WriteToBoard pos (st.moves.length + 1)) pos :=
                    collect_mem_of hk hvn
                  have hmem' := (sortCandidates_perm
                    (collectCandidates (placeStep st pos (st.moves.length + 1)).board pos)).mem_iff.mpr hmem
                  have := hTl ⟨_, hmem', hTn⟩
                  simp at this

/-! General-context unfolding and cancellation-time lemmas. -/

/-- State after the top-of-call check and the attempt increment. -/
def attemptStep (st : SolverState) : SolverState :=
  { st with steps := st.steps + 1, attemptCount := st.attemptCount + 1 }

/-- State after the board write (with its ghost accounting). -/
def writeStep (ctx : Option Nat) (st : SolverState) (pos : Position) (m : Nat) :
    SolverState :=
  let st := ghostPlace ctx st
  { st with board := st.board.WriteToBoard pos m }

/-- State after the placement-event check, emission and log append. -/
def emitPlace (ctx : Option Nat) (st : SolverState) (pos : Position) (m : Nat) :
    SolverState :=
  let st := tick st
  let st := ghostEmit ctx st
  let st := { st with events := st.events ++ [MoveUpdate.mk pos m false] }
  { st with moves := st.moves ++ [MoveUpdate.mk pos m false] }

/-- State after the board clear (with its ghost accounting). -/
def clearStep (ctx : Option Nat) (st : SolverState) (pos : Position) : SolverState :=
  let st := ghostClear ctx st
  { st with board := st.board.ClearPosition pos }

/-- State after the backtrack check, emission and log pop. -/
def emitBack (ctx : Option Nat) (st : SolverState) (pos : Position) : SolverState :=
  let st := tick st
  let st := ghostEmit ctx st
  let st := { st with events := st.events ++ [MoveUpdate.mk pos 0 true] }
  { st with moves := if 0 < st.moves.length then st.moves.dropLast else st.moves }

/-- Unfolding of one engine call under an arbitrary cancellation context. -/
theorem solveRecursive_succ (ctx : Option Nat) (fuel : Nat) (st : SolverState)
    (pos : Position) (m : Nat) :
    solveRecursive ctx (fuel + 1) st pos m =
      if ctxDone ctx st.steps then .ok false (tick st)
      else
        if posInBounds st.board.size pos then
          if ctxDone ctx (writeStep ctx (attemptStep st) pos m).steps then
            .ok false (tick (writeStep ctx (attemptStep st) pos m))
          else
            if (emitPlace ctx (writeStep ctx (attemptStep st) pos m) pos m).board.IsComplete then
              if ctxDone ctx
                  (emitPlace ctx (writeStep ctx (attemptStep st) pos m) pos m).steps then
                .ok false (tick (emitPlace ctx (writeStep ctx (attemptStep st) pos m) pos m))
              else
                .ok true (tick (emitPlace ctx (writeStep ctx (attemptStep st) pos m) pos m))
            else
              match tryCands (fun s p => solveRecursive ctx fuel s p (m + 1))
                    (emitPlace ctx (writeStep ctx (attemptStep st) pos m) pos m)
                    (sortCandidates (collectCandidates
                      (emitPlace ctx (writeStep ctx (attemptStep st) pos m) pos m).board pos)) with
              | .ok true stS => .ok true stS
              | .ok false stF =>
                  if ctxDone ctx (clearStep ctx stF pos).steps then
                    .ok false (tick (clearStep ctx stF pos))
                  else .ok false (emitBack ctx (clearStep ctx stF pos) pos)
              | r => r
        else .panic := rfl

@[simp] theorem attemptStep_steps (st : SolverState) :
    (attemptStep st).steps = st.steps + 1 := rfl

@[simp] theorem writeStep_steps (ctx : Option Nat) (st : SolverState)
    (pos : Position) (m : Nat) :
    (writeStep ctx st pos m).steps = st.steps := by
  simp only [writeStep, ghostPlace]
  split <;> rfl

@[simp] theorem emitPlace_steps (ctx : Option Nat) (st : SolverState)
    (pos : Position) (m : Nat) :
    (emitPlace ctx st pos m).steps = st.steps + 1 := by
  simp only [emitPlace, ghostEmit, tick]
  split <;> rfl

@[simp] theorem clearStep_steps (ctx : Option Nat) (st : SolverState) (pos : Position) :
    (clearStep ctx st pos).steps = st.steps := by
  simp only [clearStep, ghostClear]
  split <;> rfl

@[simp] theorem emitBack_steps (ctx : Option Nat) (st : SolverState) (pos : Position) :
    (emitBack ctx st pos).steps = st.steps + 1 := by
  simp only [emitBack, ghostEmit, tick]
  split <;> rfl

@[simp] theorem tick_steps (st : SolverState) : (tick st).steps = st.steps + 1 := rfl

/-- A check that passed means no observation point up to and including it
has seen the cancellation. -/
theorem obsNow_eq_false_of_check {ctx : Option Nat} {k : Nat}
    (h : ctxDone ctx k = false) (st : SolverState) (hs : st.steps = k + 1) :
    obsNow ctx st = false := by
  cases ctx with
  | none => rfl
  | some T =>
      simp only [ctxDone, decide_eq_false_iff_not, Nat.not_le] at h
      simp only [obsNow, decide_eq_false_iff_not, Nat.not_lt, hs]
      omega

theorem obsNow_mono {ctx : Option Nat} {s s' : SolverState}
    (h : obsNow ctx s = true) (hsteps : s.steps ≤ s'.steps) :
    obsNow ctx s' = true := by
  cases ctx with
  | none => simp [obsNow] at h
  | some T =>
      simp only [obsNow, decide_eq_true_eq] at h ⊢
      omega

theorem ctxDone_of_obsNow {ctx : Option Nat} {st : SolverState}
    (h : obsNow ctx st = true) : ctxDone ctx st.steps = true := by
  cases ctx with
  | none => simp [obsNow] at h
  | some T =>
      simp only [obsNow, decide_eq_true_eq] at h
      simp only [ctxDone, decide_eq_true_eq]
      omega

/-- Ghost-counter preservation for the committed (Done-priority) engine:
whenever it returns normally, it has performed no board placement and no
event emission at a point where cancellation had already been observed.
This is a fact about the committed schedule only; the claim-level
statement quantifies over every schedule via `solveRecursiveSched` and
asserts just the placement half, which is schedule-independent. -/
def ghostsPreserved : RunResult → SolverState → Prop
  | .ok _ st', st => st'.placeAfterObs = st.placeAfterObs ∧
      st'.emitAfterObs = st.emitAfterObs
  | _, _ => True

theorem writeStep_ghosts {ctx : Option Nat} {st : SolverState}
    (h : obsNow ctx st = false) (pos : Position) (m : Nat) :
    (writeStep ctx st pos m).placeAfterObs = st.placeAfterObs ∧
    (writeStep ctx st pos m).emitAfterObs = st.emitAfterObs := by
  simp [writeStep, ghostPlace, h]

theorem emitPlace_ghosts {ctx : Option Nat} {st : SolverState}
    (h : obsNow ctx (tick st) = false) (pos : Position) (m : Nat) :
    (emitPlace ctx st pos m).placeAfterObs = st.placeAfterObs ∧
    (emitPlace ctx st pos m).emitAfterObs = st.emitAfterObs := by
  simp only [tick] at h
  simp [emitPlace, ghostEmit, tick, h]

theorem clearStep_ghosts (ctx : Option Nat) (st : SolverState) (pos : Position) :
    (clearStep ctx st pos).placeAfterObs = st.placeAfterObs ∧
    (clearStep ctx st pos).emitAfterObs = st.emitAfterObs := by
  simp only [clearStep, ghostClear]
  split <;> exact ⟨rfl, rfl⟩

theorem emitBack_ghosts {ctx : Option Nat} {st : SolverState}
    (h : obsNow ctx (tick st) = false) (pos : Position) :
    (emitBack ctx st pos).placeAfterObs = st.placeAfterObs ∧
    (emitBack ctx st pos).emitAfterObs = st.emitAfterObs := by
  simp only [tick] at h
  simp [emitBack, ghostEmit, tick, h]

theorem tryCands_ghosts (f : SolverState → Position → RunResult)
    (hf : ∀ s p, ghostsPreserved (f s p) s) :
    ∀ (cands : List MoveCandidate) (st : SolverState),
      ghostsPreserved (tryCands f st cands) st := by
  intro cands
  induction cands with
  | nil => intro st; exact ⟨rfl, rfl⟩
  | cons c rest ih =>
      intro st
      simp only [tryCands]
      have h1 := hf st c.position
      cases hfc : f st c.position with
      | out => trivial
      | panic => trivial
      | ok r st' =>
          rw [hfc] at h1
          cases r with
          | true => exact h1
          | false =>
              show ghostsPreserved (tryCands f st' rest) st
              have h2 := ih st'
              cases hrec : tryCands f st' rest with
              | out => trivial
              | panic => trivial
              | ok r2 st2 =>
                  rw [hrec] at h2
                  obtain ⟨hp1, he1⟩ := h1
                  obtain ⟨hp2, he2⟩ := h2
                  exact ⟨hp2.trans hp1, he2.trans he1⟩

/-- No engine call ever places or emits after cancellation has been
observed: both ghost counters are returned exactly as received. -/
theorem engine_ghosts :
    ∀ (ctx : Option Nat) (fuel : Nat) (st : SolverState) (pos : Position) (m : Nat),
      ghostsPreserved (solveRecursive ctx fuel st pos m) st := by
  intro ctx fuel
  induction fuel with
  | zero => intro st pos m; trivial
  | succ fuel IH =>
      intro st pos m
      rw [solveRecursive_succ]
      by_cases h0 : ctxDone ctx st.steps = true
      · rw [if_pos h0]; exact ⟨rfl, rfl⟩
      · rw [if_neg h0]
        have h0' : ctxDone ctx st.steps = false := by simpa using h0
        by_cases hb : posInBounds st.board.size pos = true
        · rw [if_pos hb]
          have hobs1 : obsNow ctx (attemptStep st) = false :=
            obsNow_eq_false_of_check h0' (attemptStep st) rfl
          have hw := @writeStep_ghosts ctx (attemptStep st) hobs1 pos m
          by_cases h2 : ctxDone ctx (writeStep ctx (attemptStep st) pos m).steps = true
          · rw [if_pos h2]
            exact ⟨hw.1, hw.2⟩
          · rw [if_neg h2]
            have h2' : ctxDone ctx (writeStep ctx (attemptStep st) pos m).steps = false := by
              simpa using h2
            have hobs2 : obsNow ctx (tick (writeStep ctx (attemptStep st) pos m)) = false :=
              obsNow_eq_false_of_check h2' _ (by simp)
            have hE := @emitPlace_ghosts ctx (writeStep ctx (attemptStep st) pos m)
              hobs2 pos m
            by_cases h3 : (emitPlace ctx (writeStep ctx (attemptStep st) pos m) pos m).board.IsComplete = true
            · rw [if_pos h3]
              by_cases h4 : ctxDone ctx
                  (emitPlace ctx (writeStep ctx (attemptStep st) pos m) pos m).steps = true
              · rw [if_pos h4]
                exact ⟨hE.1.trans hw.1, hE.2.trans hw.2⟩
              · rw [if_neg h4]
                exact ⟨hE.1.trans hw.1, hE.2.trans hw.2⟩
            · rw [if_neg h3]
              have hloop := tryCands_ghosts (fun s p => solveRecursive ctx fuel s p (m + 1))
                (fun s p => IH s p (m + 1))
                (sortCandidates (collectCandidates
                  (emitPlace ctx (writeStep ctx (attemptStep st) pos m) pos m).board pos))
                (emitPlace ctx (writeStep ctx (attemptStep st) pos m) pos m)
              cases hl : tryCands (fun s p => solveRecursive ctx fuel s p (m + 1))
                  (emitPlace ctx (writeStep ctx (attemptStep st) pos m) pos m)
                  (sortCandidates (collectCandidates
                    (emitPlace ctx (writeStep ctx (attemptStep st) pos m) pos m).board pos)) with
              | out => trivial
              | panic => trivial
              | ok rF stF =>
                  rw [hl] at hloop
                  obtain ⟨hpF, heF⟩ := hloop
                  cases rF with
                  | true =>
                      exact ⟨hpF.trans (hE.1.trans hw.1), heF.trans (hE.2.trans hw.2)⟩
                  | false =>
                      show ghostsPreserved
                        (if ctxDone ctx (clearStep ctx stF pos).steps = true then
                          RunResult.ok false (tick (clearStep ctx stF pos))
                        else RunResult.ok false (emitBack ctx (clearStep ctx stF pos) pos)) st
                      have hC := clearStep_ghosts ctx stF pos
                      by_cases h5 : ctxDone ctx (clearStep ctx stF pos).steps = true
                      · rw [if_pos h5]
                        exact ⟨(hC.1.trans hpF).trans (hE.1.trans hw.1),
                          (hC.2.trans heF).trans (hE.2.trans hw.2)⟩
                      · rw [if_neg h5]
                        have h5' : ctxDone ctx (clearStep ctx stF pos).steps = false := by
                          simpa using h5
                        have hobs5 : obsNow ctx (tick (clearStep ctx stF pos)) = false :=
                          obsNow_eq_false_of_check h5' _ (by simp)
                        have hB := @emitBack_ghosts ctx (clearStep ctx stF pos) hobs5 pos
                        exact ⟨((hB.1.trans hC.1).trans hpF).trans (hE.1.trans hw.1),
                          ((hB.2.trans hC.2).trans heF).trans (hE.2.trans hw.2)⟩
        · rw [if_neg hb]
          trivial

@[simp] theorem attemptStep_board (st : SolverState) :
    (attemptStep st).board = st.board := rfl

@[simp] theorem writeStep_board (ctx : Option Nat) (st : SolverState)
    (pos : Position) (m : Nat) :
    (writeStep ctx st pos m).board = st.board.WriteToBoard pos m := by
  simp only [writeStep, ghostPlace]
  split <;> rfl

@[simp] theorem emitPlace_board (ctx : Option Nat) (st : SolverState)
    (pos : Position) (m : Nat) :
    (emitPlace ctx st pos m).board = st.board := by
  simp only [emitPlace, ghostEmit, tick]
  split <;> rfl

@[simp] theorem clearStep_board (ctx : Option Nat) (st : SolverState) (pos : Position) :
    (clearStep ctx st pos).board = st.board.ClearPosition pos := by
  simp only [clearStep, ghostClear]
  split <;> rfl

@[simp] theorem emitBack_board (ctx : Option Nat) (st : SolverState) (pos : Position) :
    (emitBack ctx st pos).board = st.board := by
  simp only [emitBack, ghostEmit, tick]
  split <;> rfl

theorem obsNow_of_check_done {ctx : Option Nat} {k : Nat}
    (h : ctxDone ctx k = true) (st : SolverState) (hs : st.steps = k + 1) :
    obsNow ctx st = true := by
  cases ctx with
  | none => simp [ctxDone] at h
  | some T =>
      simp only [ctxDone, decide_eq_true_eq] at h
      simp only [obsNow, decide_eq_true_eq, hs]
      omega

/-- The candidate loop never indexes out of range: every candidate was
bounds-checked when collected (or cancellation was already observed and
every remaining call returns at its top check). -/
theorem tryCands_no_panic (ctx : Option Nat) (fuel : Nat) (m' : Nat)
    (IH : ∀ st pos, (st.board.IsValidMove pos = true ∨ obsNow ctx st = true) →
      solveRecursive ctx fuel st pos m' ≠ .panic ∧
      ∀ r st', solveRecursive ctx fuel st pos m' = .ok r st' →
        st.steps ≤ st'.steps ∧ st'.board.size = st.board.size ∧
        (r = false → st'.board = st.board ∨ obsNow ctx st' = true)) :
    ∀ (cands : List MoveCandidate) (st : SolverState),
      ((∀ c ∈ cands, st.board.IsValidMove c.position = true) ∨ obsNow ctx st = true) →
      tryCands (fun s p => solveRecursive ctx fuel s p m') st cands ≠ .panic ∧
      ∀ r st', tryCands (fun s p => solveRecursive ctx fuel s p m') st cands = .ok r st' →
        st.steps ≤ st'.steps ∧ st'.board.size = st.board.size ∧
        (r = false → st'.board = st.board ∨ obsNow ctx st' = true) := by
  intro cands
  induction cands with
  | nil =>
      intro st hcond
      constructor
      · simp [tryCands]
      · intro r st' heq
        simp only [tryCands] at heq
        cases heq
        exact ⟨Nat.le_refl _, rfl, fun _ => Or.inl rfl⟩
  | cons c rest ih =>
      intro st hcond
      have hchild : st.board.IsValidMove c.position = true ∨ obsNow ctx st = true := by
        rcases hcond with hvalid | hobs
        · exact Or.inl (hvalid c (List.mem_cons_self c rest))
        · exact Or.inr hobs
      obtain ⟨hnp, hok⟩ := IH st c.position hchild
      simp only [tryCands]
      cases hfc : solveRecursive ctx fuel st c.position m' with
      | out =>
          constructor
          · simp
          · intro r st' heq; cases heq
      | panic => exact absurd hfc hnp
      | ok rc stc =>
          obtain ⟨hsteps, hsize, hrest⟩ := hok rc stc hfc
          cases rc with
          | true =>
              constructor
              · simp
              · intro r st' heq
                cases heq
                exact ⟨hsteps, hsize, fun h => absurd h (by simp)⟩
          | false =>
              show tryCands (fun s p => solveRecursive ctx fuel s p m') stc rest ≠ .panic ∧ _
              have hcond' : (∀ c' ∈ rest, stc.board.IsValidMove c'.position = true) ∨
                  obsNow ctx stc = true := by
                rcases hrest rfl with hrestore | hobs'
                · rcases hcond with hvalid | hobs
                  · exact Or.inl (fun c' hc' => by
                      rw [hrestore]; exact hvalid c' (List.mem_cons_of_mem c hc'))
                  · exact Or.inr (obsNow_mono hobs hsteps)
                · exact Or.inr hobs'
              obtain ⟨hnp2, hok2⟩ := ih stc hcond'
              constructor
              · exact hnp2
              · intro r st' heq
                obtain ⟨hsteps2, hsize2, hrest2⟩ := hok2 r st' heq
                refine ⟨Nat.le_trans hsteps hsteps2, hsize2.trans hsize, ?_⟩
                intro hr
                rcases hrest2 hr with hrestor2 | hobs2
                · rcases hrest rfl with hrestore | hobs'
                  · exact Or.inl (hrestor2.trans hrestore)
                  · exact Or.inr (obsNow_mono hobs' hsteps2)
                · exact Or.inr hobs2

/-- Under any cancellation context, an engine call on a legal square (or
one made after cancellation was observed) never performs an out-of-range
board access, its observation counter is monotone, the board size is
preserved, and a failed call either restores the board exactly or has
observed the cancellation. -/
theorem engine_no_panic :
    ∀ (ctx : Option Nat) (fuel : Nat) (st : SolverState) (pos : Position) (m : Nat),
      (st.board.IsValidMove pos = true ∨ obsNow ctx st = true) →
      solveRecursive ctx fuel st pos m ≠ .panic ∧
      ∀ r st', solveRecursive ctx fuel st pos m = .ok r st' →
        st.steps ≤ st'.steps ∧ st'.board.size = st.board.size ∧
        (r = false → st'.board = st.board ∨ obsNow ctx st' = true) := by
  intro ctx fuel
  induction fuel with
  | zero =>
      intro st pos m hcond
      constructor
      · simp [solveRecursive]
      · intro r st' heq
        cases heq
  | succ fuel IH =>
      intro st pos m hcond
      rw [solveRecursive_succ]
      by_cases h0 : ctxDone ctx st.steps = true
      · rw [if_pos h0]
        constructor
        · simp
        · intro r st' heq
          cases heq
          exact ⟨by simp, rfl, fun _ => Or.inl rfl⟩
      · rw [if_neg h0]
        have hvalid : st.board.IsValidMove pos = true := by
          rcases hcond with hv | hobs
          · exact hv
          · exact absurd (ctxDone_of_obsNow hobs) h0
        obtain ⟨hpos, hcell0⟩ := Board.IsValidMove_iff.mp hvalid
        rw [if_pos hpos]
        by_cases h2 : ctxDone ctx (writeStep ctx (attemptStep st) pos m).steps = true
        · rw [if_pos h2]
          constructor
          · simp
          · intro r st' heq
            cases heq
            refine ⟨by simp; omega, by simp [Board.size_write], fun _ => Or.inr ?_⟩
            exact obsNow_of_check_done h2 _ (by simp)
        · rw [if_neg h2]
          by_cases h3 : (emitPlace ctx (writeStep ctx (attemptStep st) pos m) pos m).board.IsComplete = true
          · rw [if_pos h3]
            by_cases h4 : ctxDone ctx
                (emitPlace ctx (writeStep ctx (attemptStep st) pos m) pos m).steps = true
            · rw [if_pos h4]
              constructor
              · simp
              · intro r st' heq
                cases heq
                refine ⟨by simp; omega, by simp [Board.size_write], fun _ => Or.inr ?_⟩
                exact obsNow_of_check_done h4 _ (by simp)
            · rw [if_neg h4]
              constructor
              · simp
              · intro r st' heq
                cases heq
                exact ⟨by simp; omega, by simp [Board.size_write],
                  fun h => absurd h (by simp)⟩
          · rw [if_neg h3]
            have hloopcond : (∀ c ∈ sortCandidates (collectCandidates
                (emitPlace ctx (writeStep ctx (attemptStep st) pos m) pos m).board pos),
                (emitPlace ctx (writeStep ctx (attemptStep st) pos m) pos m).board.IsValidMove
                  c.position = true) ∨
                obsNow ctx (emitPlace ctx (writeStep ctx (attemptStep st) pos m) pos m) = true :=
              Or.inl (fun c hc => (collect_props ((sortCandidates_perm _).mem_iff.mp hc)).1)
            obtain ⟨hnp, hok⟩ := tryCands_no_panic ctx fuel (m + 1)
              (fun s p hc => IH s p (m + 1) hc)
              (sortCandidates (collectCandidates
                (emitPlace ctx (writeStep ctx (attemptStep st) pos m) pos m).board pos))
              (emitPlace ctx (writeStep ctx (attemptStep st) pos m) pos m) hloopcond
            cases hl : tryCands (fun s p => solveRecursive ctx fuel s p (m + 1))
                (emitPlace ctx (writeStep ctx (attemptStep st) pos m) pos m)
                (sortCandidates (collectCandidates
                  (emitPlace ctx (writeStep ctx (attemptStep st) pos m) pos m).board pos)) with
            | out =>
                constructor
                · simp
                · intro r st' heq; cases heq
            | panic => exact absurd hl hnp
            | ok rF stF =>
                obtain ⟨hstepsF, hsizeF, hrestF⟩ := hok rF stF hl
                simp only [emitPlace_steps, writeStep_steps, attemptStep_steps] at hstepsF
                simp only [emitPlace_board, writeStep_board, attemptStep_board] at hsizeF hrestF
                cases rF with
                | true =>
                    constructor
                    · simp
                    · intro r st' heq
                      cases heq
                      refine ⟨by omega, by rw [hsizeF]; simp [Board.size_write],
                        fun h => absurd h (by simp)⟩
                | false =>
                    show (if ctxDone ctx (clearStep ctx stF pos).steps = true then
                        RunResult.ok false (tick (clearStep ctx stF pos))
                      else RunResult.ok false (emitBack ctx (clearStep ctx stF pos) pos)) ≠
                        .panic ∧
                      ∀ r st',
                        (if ctxDone ctx (clearStep ctx stF pos).steps = true then
                          RunResult.ok false (tick (clearStep ctx stF pos))
                        else RunResult.ok false (emitBack ctx (clearStep ctx stF pos) pos)) =
                          .ok r st' →
                        st.steps ≤ st'.steps ∧ st'.board.size = st.board.size ∧
                        (r = false → st'.board = st.board ∨ obsNow ctx st' = true)
                    by_cases h5 : ctxDone ctx (clearStep ctx stF pos).steps = true
                    · rw [if_pos h5]
                      constructor
                      · simp
                      · intro r st' heq
                        cases heq
                        refine ⟨?_, ?_, fun _ => Or.inr ?_⟩
                        · simp; omega
                        · simp [Board.size_clear, hsizeF, Board.size_write]
                        · exact obsNow_of_check_done h5 _ (by simp)
                    · rw [if_neg h5]
                      constructor
                      · simp
                      · intro r st' heq
                        cases heq
                        refine ⟨?_, ?_, fun _ => ?_⟩
                        · simp; omega
                        · simp [Board.size_clear, hsizeF, Board.size_write]
                        · rcases hrestF rfl with hres | hobsF
                          · refine Or.inl ?_
                            simp only [emitBack_board, clearStep_board, hres]
                            exact Board.clear_write_cancel _ hcell0
                          · refine Or.inr (obsNow_mono hobsF ?_)
                            simp

/-- The reset state of a run satisfies the node invariant. -/
theorem NodeInv_init (N : Nat) : NodeInv (initState N) := by
  refine ⟨NewBoard_WF N, ?_, ?_, ?_, ?_, rfl, rfl, GoodTrace_nil N⟩
  · intro i h; simp [initState] at h
  · intro p hp hc
    exact absurd (NewBoard_cellAt N p) hc
  · intro i h; simp [initState] at h
  · show (0 : Nat) + (NewBoard N).unvisited = N * N
    rw [NewBoard_unvisited]
    omega

/-- Root specification of one full uncancelled engine run. -/
theorem SolveRun_spec (N : Nat) (start : Position) (hs : posInBounds N start = true) :
    ∃ r st', SolveRun none N start = .ok r st' ∧
      st'.board.size = N ∧
      NodeInv st' ∧
      st'.attemptCount = countPlacements st'.events ∧
      (r = false → st'.board = NewBoard N ∧ st'.moves = []) ∧
      (r = true → st'.board.IsComplete = true ∧ st'.moves.length = N * N) ∧
      (Tour (NewBoard N) start 1 → r = true) := by
  have hvalid : (initState N).board.IsValidMove start = true := by
    rw [Board.IsValidMove_iff]
    exact ⟨hs, NewBoard_cellAt N start⟩
  obtain ⟨r, st', heq, hsz, hNI, ⟨Δ, hev, hatt⟩, hfail, hcomp, hTour⟩ :=
    engine_none_spec (N * N + 1) (initState N) start 1 (NodeInv_init N) hvalid rfl
      (fun e he => by simp [initState] at he)
      (by show (NewBoard N).unvisited < N * N + 1
          rw [NewBoard_unvisited]
          omega)
  refine ⟨r, st', heq, hsz, hNI, ?_, ?_, ?_, hTour⟩
  · rw [hatt, hev]
    show (0 : Nat) + countPlacements Δ = countPlacements ([] ++ Δ)
    simp
  · intro hr
    exact hfail hr
  · intro hr
    refine ⟨hcomp hr, ?_⟩
    obtain ⟨-, -, -, -, hcnt, -, -, -⟩ := hNI
    have h0 : st'.board.unvisited = 0 := Board.IsComplete_iff_unvisited.mp (hcomp hr)
    have hszN : st'.board.size = N := hsz
    rw [h0, hszN] at hcnt
    omega

/-- The candidate loops of the engine and the CLI agree step by step. -/
theorem cliTry_eq (f : SolverState → Position → RunResult)
    (g : Board → Nat → Position → CliResult)
    (hfg : ∀ s p, cliOfRun (f s p) = g s.board s.attemptCount p) :
    ∀ (cands : List MoveCandidate) (st : SolverState),
      cliOfRun (tryCands f st cands) = cliTry g st.board st.attemptCount cands := by
  intro cands
  induction cands with
  | nil => intro st; rfl
  | cons c rest ih =>
      intro st
      simp only [tryCands, cliTry]
      have h1 := hfg st c.position
      cases hfc : f st c.position with
      | out =>
          rw [hfc] at h1
          rw [← h1]
          rfl
      | panic =>
          rw [hfc] at h1
          rw [← h1]
          rfl
      | ok r st' =>
          rw [hfc] at h1
          cases r with
          | true =>
              rw [← h1]
              rfl
          | false =>
              rw [← h1]
              exact ih st'

/-- One-step unfolding of the CLI search. -/
theorem MoveKnight_succ (fuel : Nat) (b : Board) (att : Nat) (pos : Position) (m : Nat) :
    MoveKnight (fuel + 1) b att pos m =
      if posInBounds b.size pos then
        if (b.WriteToBoard pos m).IsComplete then .ok true (b.WriteToBoard pos m) (att + 1)
        else
          match cliTry (fun b' a p => MoveKnight fuel b' a p (m + 1)) (b.WriteToBoard pos m)
                (att + 1) (sortCandidates (collectCandidates (b.WriteToBoard pos m) pos)) with
          | .ok true b' att' => .ok true b' att'
          | .ok false b' att' => .ok false (b'.ClearPosition pos) att'
          | r => r
      else .panic := rfl

/-- The engine (uncancelled, with event emission and move-log bookkeeping
projected away) and the CLI search compute identical results: same
success flag, same final board, same attempt count, at every fuel. -/
theorem engine_cli_eq :
    ∀ (fuel : Nat) (st : SolverState) (pos : Position) (m : Nat),
      cliOfRun (solveRecursive none fuel st pos m) =
        MoveKnight fuel st.board st.attemptCount pos m := by
  intro fuel
  induction fuel with
  | zero => intro st pos m; rfl
  | succ fuel IH =>
      intro st pos m
      rw [solveRecursive_none_succ, MoveKnight_succ]
      simp only [placeStep_board]
      by_cases hb : posInBounds st.board.size pos = true
      · rw [if_pos hb, if_pos hb]
        by_cases hc : (st.board.WriteToBoard pos m).IsComplete = true
        · rw [if_pos hc, if_pos hc]
          rfl
        · rw [if_neg hc, if_neg hc]
          have hloop := cliTry_eq (fun s p => solveRecursive none fuel s p (m + 1))
            (fun b' a p => MoveKnight fuel b' a p (m + 1))
            (fun s p => IH s p (m + 1))
            (sortCandidates (collectCandidates (st.board.WriteToBoard pos m) pos))
            (placeStep st pos m)
          simp only [placeStep_board, placeStep_attempt] at hloop
          cases hl : tryCands (fun s p => solveRecursive none fuel s p (m + 1))
              (placeStep st pos m)
              (sortCandidates (collectCandidates (st.board.WriteToBoard pos m) pos)) with
          | out =>
              rw [hl] at hloop
              rw [← hloop]
              rfl
          | panic =>
              rw [hl] at hloop
              rw [← hloop]
              rfl
          | ok r st' =>
              rw [hl] at hloop
              cases r with
              | true =>
                  rw [← hloop]
                  rfl
              | false =>
                  rw [← hloop]
                  rfl
      · rw [if_neg hb, if_neg hb]
        rfl

/-! Schedule-parameterised engine.  Go's `select` with both a ready
channel send and a fired `<-ctx.Done()` picks among the ready cases
nondeterministically; `solveRecursive` above commits to the `ctx.Done()`
branch.  To reason about every admissible resolution of these races,
`solveRecursiveSched` consults a schedule oracle `sched`: at a
send-select whose observation point sees the cancellation fired, `sched`
of that point's number decides whether the `ctx.Done()` branch is taken
(`true`) or the send wins (`false`: emit — or signal completion — and
continue, as Go may).  When the cancellation has not fired there is no
race and the send happens.  Top-of-call checks have a `default` case in
Go and are deterministic, so they consult no oracle. -/

def solveRecursiveSched (ctx : Option Nat) (sched : Nat → Bool) :
    Nat → SolverState → Position → Nat → RunResult
  | 0, _, _, _ => .out
  | fuel + 1, st, currentPos, moveNumber =>
      if ctxDone ctx st.steps then .ok false (tick st) else
      let st := tick st
      let st := { st with attemptCount := st.attemptCount + 1 }
      if posInBounds st.board.size currentPos then
        let st := ghostPlace ctx st
        let st := { st with board := st.board.WriteToBoard currentPos moveNumber }
        if ctxDone ctx st.steps && sched st.steps then .ok false (tick st) else
        let st := tick st
        let st := ghostEmit ctx st
        let st := { st with events := st.events ++ [MoveUpdate.mk currentPos moveNumber false] }
        let st := { st with moves := st.moves ++ [MoveUpdate.mk currentPos moveNumber false] }
        if st.board.IsComplete then
          if ctxDone ctx st.steps && sched st.steps then .ok false (tick st)
          else .ok true (tick st)
        else
          let cands := sortCandidates (collectCandidates st.board currentPos)
          match tryCands (fun s p => solveRecursiveSched ctx sched fuel s p (moveNumber + 1))
                st cands with
          | .ok true stS => .ok true stS
          | .ok false stF =>
              let st := ghostClear ctx stF
              let st := { st with board := st.board.ClearPosition currentPos }
              if ctxDone ctx st.steps && sched st.steps then .ok false (tick st) else
              let st := tick st
              let st := ghostEmit ctx st
              let st := { st with events := st.events ++ [MoveUpdate.mk currentPos 0 true] }
              let st := { st with moves :=
                if 0 < st.moves.length then st.moves.dropLast else st.moves }
              .ok false st
          | r => r
      else .panic

/-- Unfolding of one schedule-parameterised engine call. -/
theorem solveRecursiveSched_succ (ctx : Option Nat) (sched : Nat → Bool) (fuel : Nat)
    (st : SolverState) (pos : Position) (m : Nat) :
    solveRecursiveSched ctx sched (fuel + 1) st pos m =
      if ctxDone ctx st.steps then .ok false (tick st)
      else
        if posInBounds st.board.size pos then
          if ctxDone ctx (writeStep ctx (attemptStep st) pos m).steps &&
              sched (writeStep ctx (attemptStep st) pos m).steps then
            .ok false (tick (writeStep ctx (attemptStep st) pos m))
          else
            if (emitPlace ctx (writeStep ctx (attemptStep st) pos m) pos m).board.IsComplete then
              if ctxDone ctx
                  (emitPlace ctx (writeStep ctx (attemptStep st) pos m) pos m).steps &&
                  sched (emitPlace ctx (writeStep ctx (attemptStep st) pos m) pos m).steps then
                .ok false (tick (emitPlace ctx (writeStep ctx (attemptStep st) pos m) pos m))
              else
                .ok true (tick (emitPlace ctx (writeStep ctx (attemptStep st) pos m) pos m))
            else
              match tryCands (fun s p => solveRecursiveSched ctx sched fuel s p (m + 1))
                    (emitPlace ctx (writeStep ctx (attemptStep st) pos m) pos m)
                    (sortCandidates (collectCandidates
                      (emitPlace ctx (writeStep ctx (attemptStep st) pos m) pos m).board pos)) with
              | .ok true stS => .ok true stS
              | .ok false stF =>
                  if ctxDone ctx (clearStep ctx stF pos).steps &&
                      sched (clearStep ctx stF pos).steps then
                    .ok false (tick (clearStep ctx stF pos))
                  else .ok false (emitBack ctx (clearStep ctx stF pos) pos)
              | r => r
        else .panic := rfl

/-- The schedule-independent half of the cancellation guarantee: the
returned state carries the ghost placement counter exactly as received
(no placement was performed after an observation point had seen the
cancellation). -/
def noPlaceAfterObs : RunResult → SolverState → Prop
  | .ok _ st', st => st'.placeAfterObs = st.placeAfterObs
  | _, _ => True

theorem emitPlace_place_ghost (ctx : Option Nat) (st : SolverState)
    (pos : Position) (m : Nat) :
    (emitPlace ctx st pos m).placeAfterObs = st.placeAfterObs := by
  simp only [emitPlace, ghostEmit, tick]
  split <;> rfl

theorem emitBack_place_ghost (ctx : Option Nat) (st : SolverState) (pos : Position) :
    (emitBack ctx st pos).placeAfterObs = st.placeAfterObs := by
  simp only [emitBack, ghostEmit, tick]
  split <;> rfl

theorem tryCands_place_ghosts (f : SolverState → Position → RunResult)
    (hf : ∀ s p, noPlaceAfterObs (f s p) s) :
    ∀ (cands : List MoveCandidate) (st : SolverState),
      noPlaceAfterObs (tryCands f st cands) st := by
  intro cands
  induction cands with
  | nil => intro st; exact rfl
  | cons c rest ih =>
      intro st
      simp only [tryCands]
      have h1 := hf st c.position
      cases hfc : f st c.position with
      | out => trivial
      | panic => trivial
      | ok r st' =>
          rw [hfc] at h1
          cases r with
          | true => exact h1
          | false =>
              show noPlaceAfterObs (tryCands f st' rest) st
              have h2 := ih st'
              cases hrec : tryCands f st' rest with
              | out => trivial
              | panic => trivial
              | ok r2 st2 =>
                  rw [hrec] at h2
                  exact h2.trans h1

/-- Under every cancellation context and every resolution of the
send/Done races, no engine call performs a board placement after an
observation point has seen the cancellation: a frame only writes after
its own (deterministic) top-of-call check passed, at which moment no
earlier observation point can have seen the signal. -/
theorem engine_sched_ghosts :
    ∀ (ctx : Option Nat) (sched : Nat → Bool) (fuel : Nat) (st : SolverState)
      (pos : Position) (m : Nat),
      noPlaceAfterObs (solveRecursiveSched ctx sched fuel st pos m) st := by
  intro ctx sched fuel
  induction fuel with
  | zero => intro st pos m; trivial
  | succ fuel IH =>
      intro st pos m
      rw [solveRecursiveSched_succ]
      by_cases h0 : ctxDone ctx st.steps = true
      · rw [if_pos h0]; exact rfl
      · rw [if_neg h0]
        have h0' : ctxDone ctx st.steps = false := by simpa using h0
        by_cases hb : posInBounds st.board.size pos = true
        · rw [if_pos hb]
          have hobs1 : obsNow ctx (attemptStep st) = false :=
            obsNow_eq_false_of_check h0' (attemptStep st) rfl
          have hw := (@writeStep_ghosts ctx (attemptStep st) hobs1 pos m).1
          have hE := emitPlace_place_ghost ctx (writeStep ctx (attemptStep st) pos m) pos m
          by_cases h2 : (ctxDone ctx (writeStep ctx (attemptStep st) pos m).steps &&
              sched (writeStep ctx (attemptStep st) pos m).steps) = true
          · rw [if_pos h2]
            exact hw
          · rw [if_neg h2]
            by_cases h3 : (emitPlace ctx (writeStep ctx (attemptStep st) pos m) pos m).board.IsComplete = true
            · rw [if_pos h3]
              by_cases h4 : (ctxDone ctx
                  (emitPlace ctx (writeStep ctx (attemptStep st) pos m) pos m).steps &&
                  sched (emitPlace ctx (writeStep ctx (attemptStep st) pos m) pos m).steps) = true
              · rw [if_pos h4]
                exact hE.trans hw
              · rw [if_neg h4]
                exact hE.trans hw
            · rw [if_neg h3]
              have hloop := tryCands_place_ghosts
                (fun s p => solveRecursiveSched ctx sched fuel s p (m + 1))
                (fun s p => IH s p (m + 1))
                (sortCandidates (collectCandidates
                  (emitPlace ctx (writeStep ctx (attemptStep st) pos m) pos m).board pos))
                (emitPlace ctx (writeStep ctx (attemptStep st) pos m) pos m)
              cases hl : tryCands (fun s p => solveRecursiveSched ctx sched fuel s p (m + 1))
                  (emitPlace ctx (writeStep ctx (attemptStep st) pos m) pos m)
                  (sortCandidates (collectCandidates
                    (emitPlace ctx (writeStep ctx (attemptStep st) pos m) pos m).board pos)) with
              | out => trivial
              | panic => trivial
              | ok rF stF =>
                  rw [hl] at hloop
                  cases rF with
                  | true =>
                      exact hloop.trans (hE.trans hw)
                  | false =>
                      show noPlaceAfterObs
                        (if ctxDone ctx (clearStep ctx stF pos).steps &&
                            sched (clearStep ctx stF pos).steps then
                          RunResult.ok false (tick (clearStep ctx stF pos))
                        else RunResult.ok false (emitBack ctx (clearStep ctx stF pos) pos)) st
                      have hC := (clearStep_ghosts ctx stF pos).1
                      by_cases h5 : (ctxDone ctx (clearStep ctx stF pos).steps &&
                          sched (clearStep ctx stF pos).steps) = true
                      · rw [if_pos h5]
                        exact (hC.trans hloop).trans (hE.trans hw)
                      · rw [if_neg h5]
                        have hB := emitBack_place_ghost ctx (clearStep ctx stF pos) pos
                        exact ((hB.trans hC).trans hloop).trans (hE.trans hw)
        · rw [if_neg hb]
          trivial

/-- The candidate loop is a congruence in the recursive call. -/
theorem tryCands_congr (f g : SolverState → Position → RunResult)
    (h : ∀ s p, f s p = g s p) :
    ∀ (cands : List MoveCandidate) (st : SolverState),
      tryCands f st cands = tryCands g st cands := by
  intro cands
  induction cands with
  | nil => intro st; rfl
  | cons c rest ih =>
      intro st
      simp only [tryCands]
      rw [h st c.position]
      cases g st c.position with
      | out => rfl
      | panic => rfl
      | ok r st' =>
          cases r with
          | true => rfl
          | false => exact ih st'

/-- The committed engine is the instance of the schedule family that
resolves every race towards the `ctx.Done()` branch. -/
theorem solveRecursiveSched_done_priority :
    ∀ (fuel : Nat) (ctx : Option Nat) (st : SolverState) (pos : Position) (m : Nat),
      solveRecursiveSched ctx (fun _ => true) fuel st pos m =
        solveRecursive ctx fuel st pos m := by
  intro fuel
  induction fuel with
  | zero => intro ctx st pos m; rfl
  | succ fuel IH =>
      intro ctx st pos m
      rw [solveRecursiveSched_succ, solveRecursive_succ]
      simp only [Bool.and_true]
      rw [tryCands_congr (fun s p => solveRecursiveSched ctx (fun _ => true) fuel s p (m + 1))
        (fun s p => solveRecursive ctx fuel s p (m + 1))
        (fun s p => IH ctx s p (m + 1)) _ _]

/-- A send can win its race: with cancellation firing at observation
point 2 and every race resolved towards the send, the 3×3 run from
`(0,0)` emits the root's backtrack event after cancellation was observed
(final `emitAfterObs = 1`, and `clearAfterObs = 1` as before).  This
realizable schedule is why the amended cancellation guarantee asserts no
further placements but not the absence of emissions. -/
theorem sched_emit_after_obs_example :
    solveRecursiveSched (some 2) (fun _ => false) 10 (initState 3) ⟨0, 0⟩ 1 =
      .ok false ⟨⟨3, [0, 0, 0, 0, 0, 0, 0, 0, 0]⟩, [], 1,
        [MoveUpdate.mk ⟨0, 0⟩ 1 false, MoveUpdate.mk ⟨0, 0⟩ 0 true], 5, 0, 1, 1⟩ := by
  decide

/-! Claim statements. -/

theorem posInBounds_ofNat {N x y : Nat} (hx : x < N) (hy : y < N) :
    posInBounds N ⟨(x : Int), (y : Int)⟩ = true := by
  simp only [posInBounds, decide_eq_true_eq]
  omega

/-- Success projection of an engine run. -/
def runSuccess : RunResult → Option Bool
  | .ok r _ => some r
  | _ => none

/-- The full correctness property of a successful `Solve`: the result is a
success whose returned move sequence has length `N²`, carries move numbers
`1..N²` in order, visits every board cell exactly once, and advances by a
legal knight offset at every consecutive pair. -/
def TourResultOK (N : Nat) (start : Position) : Prop :=
  ∃ ms att, Solve none N start = .returned ⟨true, ms, att⟩ ms false ∧
    ms.length = N * N ∧
    (∀ i (h : i < ms.length),
      (ms.get ⟨i, h⟩).moveNumber = i + 1 ∧ (ms.get ⟨i, h⟩).isBacktrack = false) ∧
    (∀ x y : Nat, x < N → y < N →
      ∃ i, ∃ h : i < ms.length,
        (ms.get ⟨i, h⟩).position = ⟨(x : Int), (y : Int)⟩ ∧
        ∀ j (h' : j < ms.length),
          (ms.get ⟨j, h'⟩).position = ⟨(x : Int), (y : Int)⟩ → j = i) ∧
    (∀ i (h : i + 1 < ms.length),
      isKnightStep (ms.get ⟨i, Nat.lt_of_succ_lt h⟩).position
        (ms.get ⟨i + 1, h⟩).position = true)

/-- The board invariant at every point between engine steps, phrased over
the emitted trace: every prefix replays (from a fresh board) to a board
whose nonzero cells are exactly the stack of that prefix, numbered
consecutively `1..k`, and the current position (top of the stack) holds
the maximum index `k`. -/
def PrefixInvariant (N : Nat) (events : List MoveUpdate) : Prop :=
  ∀ t Δ, events = t ++ Δ →
    PathInv (applyEvents (NewBoard N) t) (stackOf t) ∧
    ∀ h : stackOf t ≠ [],
      (applyEvents (NewBoard N) t).cellAt ((stackOf t).getLast h).position =
        (stackOf t).length

/-- C1: for every board size `N` and in-bounds start position from which a
knight's tour exists, `Solve` (uncancelled) returns success with a move
sequence of length `N²`, numbered exactly `1..N²` in order, covering every
cell exactly once, with every consecutive pair a legal knight offset. -/
theorem c1_solve_returns_full_tour (N : Nat) (start : Position)
    (hs : posInBounds N start = true) (ht : Tour (NewBoard N) start 1) :
    TourResultOK N start := by
  obtain ⟨r, st', heq, hsz, hNI, hattE, hfail, hsucc, hTour⟩ := SolveRun_spec N start hs
  have hr : r = true := hTour ht
  subst hr
  obtain ⟨hcomp, hlen⟩ := hsucc rfl
  obtain ⟨hWF, hnum, hcov, hch, hcnt, -, -, -⟩ := hNI
  refine ⟨st'.moves, st'.attemptCount, ?_, hlen, ?_, ?_, ?_⟩
  · unfold Solve
    rw [heq]
    rfl
  · intro i h
    obtain ⟨h1, h2, -, -⟩ := hnum i h
    exact ⟨h1, h2⟩
  · intro x y hx hy
    have hpB : posInBounds st'.board.size ⟨(x : Int), (y : Int)⟩ = true := by
      rw [hsz]
      exact posInBounds_ofNat hx hy
    have hcNZ : st'.board.cellAt ⟨(x : Int), (y : Int)⟩ ≠ 0 :=
      Board.complete_cellAt hWF hcomp hpB
    obtain ⟨i, hi, hip⟩ := hcov _ hpB hcNZ
    refine ⟨i, hi, hip, ?_⟩
    intro j hj hjp
    have hci := (hnum i hi).2.2.2
    have hcj := (hnum j hj).2.2.2
    rw [hip] at hci
    rw [hjp] at hcj
    omega
  · intro i h
    exact hch i h

/-- Witness for C1 at the 1×1 board: a tour exists from `(0,0)` and the
theorem yields the full success property. -/
theorem c1_witness : TourResultOK 1 ⟨0, 0⟩ :=
  c1_solve_returns_full_tour 1 ⟨0, 0⟩ (by decide) (Tour.done _ _ _ (by decide))

/-- Counterexample to C2 as stated: a request with a valid size but an
out-of-range start position is not rejected anywhere — it reaches the
engine, whose very first board write is out of range (a Go run-time
panic, `crashed` in the model). -/
theorem c2_counterexample : handleSolveRun none 8 ⟨9, 9⟩ = .crashed := by decide

/-- C2 amended: the program performs no configuration rejection.  The HTTP
handler replaces a size outside `1..20` by the default 8 (so the size the
engine sees is always in `1..20`), the start position is never validated,
and a request whose start position is outside the (normalised) board
always reaches the engine and crashes on its first board write. -/
theorem c2_no_validation (reqSize : Int) (start : Position) :
    (1 ≤ clampSize reqSize ∧ clampSize reqSize ≤ 20) ∧
    (posInBounds (clampSize reqSize) start = false →
      handleSolveRun none reqSize start = .crashed) := by
  constructor
  · unfold clampSize
    split
    · exact ⟨by omega, by omega⟩
    case isFalse h =>
      push_neg at h
      omega
  · intro h
    have hrun : SolveRun none (clampSize reqSize) start = .panic := by
      unfold SolveRun
      rw [solveRecursive_succ]
      rw [if_neg (by simp [ctxDone])]
      rw [if_neg (by
        rw [show (initState (clampSize reqSize)).board.size = clampSize reqSize from rfl, h]
        simp)]
    show Solve none (clampSize reqSize) start = .crashed
    unfold Solve
    rw [hrun]

/-- Witness for the amended C2: a 5×5 request with start `(-1,0)`. -/
theorem c2_witness : handleSolveRun none 5 ⟨-1, 0⟩ = .crashed :=
  (c2_no_validation 5 ⟨-1, 0⟩).2 (by decide)

/-- Counterexample to C3 as stated: on a 3×3 board with cancellation
firing at observation point 2 (the first child's top-of-call check), the
root frame still clears its own cell afterwards: the final state records
`clearAfterObs = 1`, a board write performed after cancellation had been
observed by a recursion frame. -/
theorem c3_counterexample :
    solveRecursive (some 2) 10 (initState 3) ⟨0, 0⟩ 1 =
      .ok false ⟨⟨3, [0, 0, 0, 0, 0, 0, 0, 0, 0]⟩, [MoveUpdate.mk ⟨0, 0⟩ 1 false], 1,
        [MoveUpdate.mk ⟨0, 0⟩ 1 false], 5, 0, 1, 0⟩ := by decide

/-- C3 amended: once the cancellation signal has been observed (it fired
before an already-performed observation point), no further board
placement occurs, and this holds under every resolution of Go's races
between a ready channel send and the fired `ctx.Done()` (quantifying over
all schedule oracles); already-placed frames still clear their own cells
(board writes) while unwinding, backtrack events may still be emitted
when the send side wins its race, and a frame whose backtrack select
takes the `ctx.Done()` branch returns without popping its log entry.  The
committed engine `solveRecursive` is the all-`ctx.Done()`-priority
instance of the schedule family, so the guarantee covers it. -/
theorem c3_no_placement_after_cancel :
    (∀ (ctx : Option Nat) (sched : Nat → Bool) (fuel : Nat) (st : SolverState)
        (pos : Position) (m : Nat),
      noPlaceAfterObs (solveRecursiveSched ctx sched fuel st pos m) st) ∧
    (∀ (ctx : Option Nat) (fuel : Nat) (st : SolverState) (pos : Position) (m : Nat),
      solveRecursiveSched ctx (fun _ => true) fuel st pos m =
        solveRecursive ctx fuel st pos m) :=
  ⟨fun ctx sched fuel st pos m => engine_sched_ghosts ctx sched fuel st pos m,
   fun ctx fuel st pos m => solveRecursiveSched_done_priority fuel ctx st pos m⟩

/-- C4: for every board size `N ≥ 1` and in-bounds start, the uncancelled
search terminates (returns within fuel `N²+1`, never hitting the fuel
bound) with the attempt count equal to the number of placements performed
across the whole search tree; on the 2×2 and 3×3 boards it reports
failure from every start. -/
theorem c4_search_terminates :
    (∀ (N : Nat) (start : Position), 1 ≤ N → posInBounds N start = true →
      ∃ r st', SolveRun none N start = .ok r st' ∧
        st'.attemptCount = countPlacements st'.events) ∧
    (∀ x y : Fin 2, runSuccess (SolveRun none 2 ⟨(x : Nat), (y : Nat)⟩) = some false) ∧
    (∀ x y : Fin 3, runSuccess (SolveRun none 3 ⟨(x : Nat), (y : Nat)⟩) = some false) := by
  refine ⟨?_, by decide, by decide⟩
  intro N start _ hs
  obtain ⟨r, st', heq, -, -, hatt, -, -, -⟩ := SolveRun_spec N start hs
  exact ⟨r, st', heq, hatt⟩

/-- Witness for C4 at the 2×2 board with start `(0,0)`. -/
theorem c4_witness :
    (1 : Nat) ≤ 2 ∧ posInBounds 2 ⟨0, 0⟩ = true ∧
    (∃ r st', SolveRun none 2 ⟨0, 0⟩ = .ok r st' ∧
      st'.attemptCount = countPlacements st'.events) :=
  ⟨by decide, by decide, c4_search_terminates.1 2 ⟨0, 0⟩ (by decide) (by decide)⟩

/-- C5: in every recursion frame the candidate ordering is a deterministic
function of the board state: the engine's candidate list is a permutation
of the in-bounds unvisited knight-offset destinations (collected in the
fixed offset-enumeration order), sorted in non-decreasing accessibility,
with ties keeping the collection order (stability, expressed as filter
preservation for every accessibility value), and every candidate scored by
`CountValidMoves`. -/
theorem c5_candidate_ordering (b : Board) (pos : Position) :
    (sortCandidates (collectCandidates b pos)).Pairwise
      (fun c d => c.accessibility ≤ d.accessibility) ∧
    (∀ v, (sortCandidates (collectCandidates b pos)).filter
        (fun c => c.accessibility == v) =
      (collectCandidates b pos).filter (fun c => c.accessibility == v)) ∧
    (sortCandidates (collectCandidates b pos)).Perm (collectCandidates b pos) ∧
    (∀ c ∈ sortCandidates (collectCandidates b pos),
      b.IsValidMove c.position = true ∧
      c.accessibility = b.CountValidMoves c.position ∧
      isKnightStep pos c.position = true) := by
  refine ⟨sortCandidates_pairwise _, fun v => sortCandidates_filter _ v,
    sortCandidates_perm _, ?_⟩
  intro c hc
  exact collect_props ((sortCandidates_perm _).mem_iff.mp hc)

/-- Counterexample to C6 as stated: with cancellation firing at
observation point 2, the 2×2 run from `(0,0)` returns `Success = false`
with empty result `Moves`, but the internal move log still holds the
placement of `(0,0)` when `Solve` returns (the cancelled frame returned
at the backtrack-send check before popping, and the cancelled early-return
path of `Solve` does not truncate the log). -/
theorem c6_counterexample :
    Solve (some 2) 2 ⟨0, 0⟩ =
      .returned ⟨false, [], 1⟩ [MoveUpdate.mk ⟨0, 0⟩ 1 false] true ∧
    ([MoveUpdate.mk ⟨0, 0⟩ 1 false] : List MoveUpdate) ≠ [] :=
  ⟨by decide, by decide⟩

/-- C6 amended: every `Solve` return with `Success = false` carries an
empty `Moves` field and the attempt count accumulated during the run; on
the ordinary (non-cancelled) failure path the internal log is truncated to
empty before returning, while the cancelled early-return path may leave
the internal log non-empty. -/
theorem c6_failure_result_empty (ctx : Option Nat) (size : Nat) (start : Position)
    (st' : SolverState) (h : SolveRun ctx size start = .ok false st') :
    ∃ log err, Solve ctx size start =
        .returned ⟨false, [], st'.attemptCount⟩ log err ∧
      (err = false → log = []) := by
  unfold Solve
  rw [h]
  by_cases hf : ctxFired ctx st'.steps = true
  · exact ⟨st'.moves, true, by simp [hf], by simp⟩
  · exact ⟨[], false, by simp [hf], fun _ => rfl⟩

/-- Witness for the amended C6: the 2×2 uncancelled run from `(0,0)`. -/
theorem c6_witness :
    ∃ log err, Solve none 2 ⟨0, 0⟩ = .returned ⟨false, [], 1⟩ log err ∧
      (err = false → log = []) :=
  c6_failure_result_empty none 2 ⟨0, 0⟩
    ⟨⟨2, [0, 0, 0, 0]⟩, [], 1,
      [MoveUpdate.mk ⟨0, 0⟩ 1 false, MoveUpdate.mk ⟨0, 0⟩ 0 true], 3, 0, 0, 0⟩
    (by decide)

/-- C7: throughout any uncancelled search from an in-bounds start, at
every point between engine steps (every prefix of the emitted trace,
which is in lockstep with the board mutations), the nonzero cells are
exactly the current path prefix, numbered consecutively `1..k` with no
gaps or repeats, and the knight's current position holds the maximum
index `k`. -/
theorem c7_board_invariant (N : Nat) (start : Position) (r : Bool)
    (st' : SolverState) (hs : posInBounds N start = true)
    (hrun : SolveRun none N start = .ok r st') :
    PrefixInvariant N st'.events := by
  obtain ⟨r0, st0, heq, hsz, hNI, -, -, -, -⟩ := SolveRun_spec N start hs
  have hid : RunResult.ok r0 st0 = RunResult.ok r st' := heq.symm.trans hrun
  injection hid with h1 h2
  subst h2
  obtain ⟨-, -, -, -, -, -, -, hgood⟩ := hNI
  rw [hsz] at hgood
  intro t Δ hsplit
  have hPI := hgood t Δ hsplit
  refine ⟨hPI, ?_⟩
  intro hne
  obtain ⟨hnum, -⟩ := hPI
  have hpos : 0 < (stackOf t).length := List.length_pos.mpr hne
  have hlt : (stackOf t).length - 1 < (stackOf t).length := by omega
  have hgl : (stackOf t).getLast hne =
      (stackOf t).get ⟨(stackOf t).length - 1, hlt⟩ := by
    rw [List.getLast_eq_getElem, List.get_eq_getElem]
  rw [hgl]
  have hcell := (hnum ((stackOf t).length - 1) hlt).2.2.2
  rw [hcell]
  omega

/-- Witness for C7: the failed 2×2 run from `(0,0)`, whose trace is one
placement followed by one backtrack. -/
theorem c7_witness :
    PrefixInvariant 2 [MoveUpdate.mk ⟨0, 0⟩ 1 false, MoveUpdate.mk ⟨0, 0⟩ 0 true] :=
  c7_board_invariant 2 ⟨0, 0⟩ false
    ⟨⟨2, [0, 0, 0, 0]⟩, [], 1,
      [MoveUpdate.mk ⟨0, 0⟩ 1 false, MoveUpdate.mk ⟨0, 0⟩ 0 true], 3, 0, 0, 0⟩
    (by decide) (by decide)

/-- C8: on the 1×1 board with start `(0,0)` and no cancellation, `Solve`
returns success with a single move and attempt count 1. -/
theorem c8_one_by_one :
    Solve none 1 ⟨0, 0⟩ =
      .returned ⟨true, [MoveUpdate.mk ⟨0, 0⟩ 1 false], 1⟩
        [MoveUpdate.mk ⟨0, 0⟩ 1 false] false := by decide

/-- C9: for every cancellation context and every in-bounds start position,
the run never performs an out-of-range board access: `Solve` never
crashes, and the engine never returns the panic marker at any fuel
(recursion only descends into positions passing `IsValidMove`). -/
theorem c9_no_out_of_bounds (ctx : Option Nat) (N : Nat) (start : Position)
    (hs : posInBounds N start = true) :
    Solve ctx N start ≠ .crashed ∧
    ∀ fuel m, solveRecursive ctx fuel (initState N) start m ≠ .panic := by
  have hvalid : (initState N).board.IsValidMove start = true := by
    rw [Board.IsValidMove_iff]
    exact ⟨hs, NewBoard_cellAt N start⟩
  constructor
  · obtain ⟨hnp, -⟩ :=
      engine_no_panic ctx (N * N + 1) (initState N) start 1 (Or.inl hvalid)
    unfold Solve
    cases h : SolveRun ctx N start with
    | out => simp
    | panic => exact absurd h hnp
    | ok r st =>
        by_cases hr : r = true
        · subst hr; simp
        · have hr' : r = false := by simpa using hr
          subst hr'
          by_cases hf : ctxFired ctx st.steps = true
          · simp [hf]
          · simp [hf]
  · intro fuel m
    obtain ⟨hnp, -⟩ := engine_no_panic ctx fuel (initState N) start m (Or.inl hvalid)
    exact hnp

/-- Witness for C9: a cancelled 3×3 run from `(1,1)`. -/
theorem c9_witness : Solve (some 5) 3 ⟨1, 1⟩ ≠ .crashed :=
  (c9_no_out_of_bounds (some 5) 3 ⟨1, 1⟩ (by decide)).1

/-- C10: the CLI search `MoveKnight` and the engine `solveRecursive`
(uncancelled, events and move log projected away) are equivalent at every
state and fuel: same success flag, same final board, same attempt count —
in particular for a full run from a fresh board. -/
theorem c10_cli_engine_equivalent :
    (∀ (fuel : Nat) (st : SolverState) (pos : Position) (m : Nat),
      cliOfRun (solveRecursive none fuel st pos m) =
        MoveKnight fuel st.board st.attemptCount pos m) ∧
    (∀ (N : Nat) (start : Position),
      cliOfRun (SolveRun none N start) =
        MoveKnight (N * N + 1) (NewBoard N) 0 start 1) := by
  refine ⟨engine_cli_eq, ?_⟩
  intro N start
  exact engine_cli_eq (N * N + 1) (initState N) start 1
